import Mathlib

/-!
# optarg: command-line option registry and argument scanner

A shallow embedding of `src/optarg/optarg.go` (package `optarg`).

* A Go `string` is a sequence of bytes: `GoString := List Nat`, every element a byte
  `0..255`. `len(v)` is `List.length`, `v[a:b]` is `List.take`/`List.drop`.
* `[]*Option` is a list of records; a `*Option` is the index of the record in the
  registry (`Ptr`), `nil` is `none`.
* The package variables `options`, `Remainder`, `ShortSwitch`, `LongSwitch` and the
  local variable `opt` of `processArgs` are the fields of the `Scanner` state.
* The channel `c` is the list of messages sent on it, in order; a message is the
  pointer sent together with the `value` field of the record at the moment of the send.
  Every send is taken to be received (the producer of an unbuffered channel waits for
  its consumer), so the scan is the sequential run of the loop of `processArgs`.
* `os.Exit(1)` ends the run: `Outcome.exit` keeps the state reached and the text
  written to the error stream. The listing that `Usage()` prints to standard output
  before the exit is not part of the state.
* `strings.TrimSpace` and the `range` loop over a string belong to the Go library and
  runtime; they are modelled on bytes with full UTF-8 decoding.
* `Usage()` returns what it wrote, the texts of its successive `fmt.Printf` calls. The
  wrapping routine `multilineWrap` is in `string.go`, which is not among the sources:
  `Usage` takes it as an argument, and a model of it made from the spec serves the
  statements about wrapping.
* The typed accessors return a `Result`, a failed type assertion being a panic; the
  width of `int` and `uint` is an argument, and the `strconv` conversions are modelled.
-/

/-- Go string: its bytes. -/
abbrev GoString := List Nat

/-- Pointer into the registry `options` (`nil` is `none`). -/
abbrev Ptr := Option Nat

/-- Result of a `strconv` conversion: the value, or `none` when `err != nil`. -/
abbrev Parsed (α : Type) := Option α

namespace optarg

/-! ## Go runtime and library: UTF-8, `unicode.IsSpace`, `strings.TrimSpace` -/

/-- UTF-8 encoding of one code point (used to write string literals). -/
def encodeRune (r : Nat) : GoString :=
  if r < 0x80 then [r]
  else if r < 0x800 then [0xC0 + r / 64, 0x80 + r % 64]
  else if r < 0x10000 then [0xE0 + r / 4096, 0x80 + r / 64 % 64, 0x80 + r % 64]
  else [0xF0 + r / 262144, 0x80 + r / 4096 % 64, 0x80 + r / 64 % 64, 0x80 + r % 64]

/-- Bytes of a Go string literal. -/
def str (s : String) : GoString := s.toList.flatMap (fun ch => encodeRune ch.toNat)

/-- Rune returned for an invalid encoding (`utf8.RuneError`). -/
def RuneError : Nat := 0xFFFD

/-- Continuation byte `10xxxxxx`. -/
def isCont (b : Nat) : Bool := 0x80 ≤ b && b < 0xC0

/-- Two-byte encoding `110xxxxx 10xxxxxx` with lead byte `c0` (`0xC2..0xDF`), `rest`
being what follows the lead byte. -/
def decode2 (c0 : Nat) : GoString → Nat × Nat
  | c1 :: _ => if isCont c1 then (c0 % 32 * 64 + c1 % 64, 2) else (RuneError, 1)
  | [] => (RuneError, 1)

/-- Three-byte encoding with lead byte `c0` (`0xE0..0xEF`); overlong forms and
surrogate halves are invalid. -/
def decode3 (c0 : Nat) : GoString → Nat × Nat
  | c1 :: c2 :: _ =>
    if isCont c1 && isCont c2 && 0x800 ≤ c0 % 16 * 4096 + c1 % 64 * 64 + c2 % 64 &&
        !(0xD800 ≤ c0 % 16 * 4096 + c1 % 64 * 64 + c2 % 64 &&
          c0 % 16 * 4096 + c1 % 64 * 64 + c2 % 64 < 0xE000)
    then (c0 % 16 * 4096 + c1 % 64 * 64 + c2 % 64, 3)
    else (RuneError, 1)
  | [_] => (RuneError, 1)
  | [] => (RuneError, 1)

/-- Four-byte encoding with lead byte `c0` (`0xF0..0xF4`); overlong forms and values
above `0x10FFFF` are invalid. -/
def decode4 (c0 : Nat) : GoString → Nat × Nat
  | c1 :: c2 :: c3 :: _ =>
    if isCont c1 && isCont c2 && isCont c3 &&
        0x10000 ≤ c0 % 8 * 262144 + c1 % 64 * 4096 + c2 % 64 * 64 + c3 % 64 &&
        c0 % 8 * 262144 + c1 % 64 * 4096 + c2 % 64 * 64 + c3 % 64 < 0x110000
    then (c0 % 8 * 262144 + c1 % 64 * 4096 + c2 % 64 * 64 + c3 % 64, 4)
    else (RuneError, 1)
  | [_, _] => (RuneError, 1)
  | [_] => (RuneError, 1)
  | [] => (RuneError, 1)

/-- Decoding of the first rune of a string, as `utf8.DecodeRuneInString` and the
`range` loop over a string do: the rune and its width in bytes. An invalid or
incomplete encoding yields `RuneError` with width 1; the empty string width 0. -/
def decodeRune : GoString → Nat × Nat
  | [] => (RuneError, 0)
  | c0 :: rest =>
    if c0 < 0x80 then (c0, 1)
    else if c0 < 0xC2 then (RuneError, 1)
    else if c0 < 0xE0 then decode2 c0 rest
    else if c0 < 0xF0 then decode3 c0 rest
    else if c0 < 0xF5 then decode4 c0 rest
    else (RuneError, 1)

/-- White space as `unicode.IsSpace` defines it. -/
def isSpace (r : Nat) : Bool :=
  (0x09 ≤ r && r ≤ 0x0D) || r == 0x20 || r == 0x85 || r == 0xA0 || r == 0x1680 ||
  (0x2000 ≤ r && r ≤ 0x200A) || r == 0x2028 || r == 0x2029 || r == 0x202F ||
  r == 0x205F || r == 0x3000

/-- Split of a string into the byte groups of its runes, front to back; `fuel` bounds
the number of runes (the length of the string is enough). -/
def runesAux : Nat → GoString → List GoString
  | 0, _ => []
  | _, [] => []
  | fuel + 1, c0 :: rest =>
    (c0 :: rest).take (decodeRune (c0 :: rest)).2 ::
      runesAux fuel ((c0 :: rest).drop (decodeRune (c0 :: rest)).2)

/-- Byte groups of the runes of a string. -/
def runes (s : GoString) : List GoString := runesAux s.length s

/-- Is this byte group the encoding of a white-space rune. -/
def spaceRune (g : GoString) : Bool := isSpace (decodeRune g).1

/-- Model of `strings.TrimSpace`: the string without its leading and trailing
white-space runes. -/
def TrimSpace (s : GoString) : GoString :=
  (((runes s).dropWhile spaceRune).rdropWhile spaceRune).flatten

/-- The strings `v[i:i+1]` for the indices `i` that `for i, _ := range v` visits: the
first byte of every rune of `v`. `skip` counts the bytes of the current rune still
to be passed over. -/
def rangeToks : Nat → GoString → List GoString
  | _, [] => []
  | 0, c0 :: rest => [c0] :: rangeToks ((decodeRune (c0 :: rest)).2 - 1) rest
  | skip + 1, _ :: rest => rangeToks skip rest

/-! ## Data model -/

/-- Dynamic value of an `interface{}`: the default value given to `Add`. -/
inductive Iface where
  | nil
  | bool (b : Bool)
  | int (n : Int)
  | int64 (n : Int)
  | uint (n : Nat)
  | uint64 (n : Nat)
  | string (s : GoString)
  deriving DecidableEq, Repr

/-- Type assertion `_, ok := x.(bool)`. -/
def Iface.isBool : Iface → Bool
  | .bool _ => true
  | _ => false

/-- Record `Option` of the package. -/
structure Option where
  Name : GoString
  ShortName : GoString
  Description : GoString
  defaultval : Iface
  value : GoString
  deriving DecidableEq, Repr

/-- Constant `headerName`. -/
def headerName : GoString := str "__hdr"

/-- Message on the channel: the pointer sent and the record's `value` at the send. -/
structure Sent where
  ptr : Nat
  value : GoString
  deriving DecidableEq, Repr

/-- Package state together with the local `opt` of `processArgs` and the traffic on
the channel `c`. -/
structure Scanner where
  options : List Option
  Remainder : List GoString
  ShortSwitch : GoString
  LongSwitch : GoString
  opt : Ptr
  c : List Sent
  deriving DecidableEq, Repr

/-- How a run of `processArgs` ends or stands: still in the loop / channel closed
(`ok`), or process terminated by `os.Exit(1)` after writing `diag` to the error
stream (`exit`). -/
inductive Outcome where
  | ok (s : Scanner)
  | exit (s : Scanner) (diag : GoString)
  deriving DecidableEq, Repr

/-! ## Operations -/

/-- `Header(title)`. -/
def Header (options : List Option) (title : GoString) : List Option :=
  options ++ [{ Name := [], ShortName := headerName, Description := title,
                defaultval := .nil, value := [] }]

/-- `Add(shortname, name, description, defaultvalue)`. -/
def Add (options : List Option) (shortname name description : GoString)
    (defaultvalue : Iface) : List Option :=
  options ++ [{ Name := name, ShortName := shortname, Description := description,
                defaultval := defaultvalue, value := [] }]

/-- `findOption(name)`: pointer to the first record whose `Name` or `ShortName` is
`name`, `nil` when there is none. -/
def findOption : List Option → GoString → Ptr
  | [], _ => none
  | o :: rest, name =>
    if o.Name = name ∨ o.ShortName = name then some 0
    else (findOption rest name).map (· + 1)

/-- Assignment `opt.value = v` through the pointer `i`. -/
def setValue : List Option → Nat → GoString → List Option
  | [], _, _ => []
  | o :: rest, 0, v => { o with value := v } :: rest
  | o :: rest, i + 1, v => o :: setValue rest i v

/-- Is the default of the record behind pointer `i` a `bool`. -/
def isBoolAt (options : List Option) (i : Nat) : Bool :=
  match options[i]? with
  | some o => o.defaultval.isBool
  | none => false

/-- Assignment to `opt.value` followed by `c <- opt; opt = nil`. -/
def emit (s : Scanner) (i : Nat) (v : GoString) : Scanner :=
  { s with options := setValue s.options i v, c := s.c ++ [⟨i, v⟩], opt := none }

/-- Lines 134-146 and 155-167: `opt = findOption(name)`; unknown name: diagnostic and
exit; boolean default: value `"true"`, send, `opt = nil`; otherwise the option stays
in `opt`. `dashes` is the literal prefix printed in the diagnostic. -/
def switchName (dashes : GoString) (s : Scanner) (name : GoString) : Outcome :=
  match findOption s.options name with
  | none =>
    .exit { s with opt := none }
      (str "Unknown option '" ++ dashes ++ name ++ str "' specified.\n")
  | some i =>
    if isBoolAt s.options i then .ok (emit s i (str "true"))
    else .ok { s with opt := some i }

/-- The loop `for i, _ := range v` of lines 153-168 over the one-byte strings it
visits. -/
def cluster : Scanner → List GoString → Outcome
  | s, [] => .ok s
  | s, tok :: toks =>
    match switchName (str "-") s tok with
    | .ok s1 => cluster s1 toks
    | .exit s1 d => .exit s1 d

/-- Body of the loop of `processArgs` for one argument `v` at an index other than 0. -/
def processArg (s : Scanner) (v : GoString) : Outcome :=
  let v := TrimSpace v
  if v.length = 0 then .ok s
  else if 3 ≤ v.length ∧ v.take 2 = s.LongSwitch then
    let v := TrimSpace (v.drop 2)
    if v.length = 0 then .ok { s with Remainder := s.Remainder ++ [s.LongSwitch] }
    else switchName (str "--") s v
  else if 2 ≤ v.length ∧ v.take 1 = s.ShortSwitch then
    let v := TrimSpace (v.drop 1)
    if v.length = 0 then .ok { s with Remainder := s.Remainder ++ [s.ShortSwitch] }
    else cluster s (rangeToks 0 v)
  else
    match s.opt with
    | none => .ok { s with Remainder := s.Remainder ++ [v] }
    | some i => .ok (emit s i v)

/-- The loop of `processArgs` over the arguments after index 0. -/
def processTail : Scanner → List GoString → Outcome
  | s, [] => .ok s
  | s, v :: vs =>
    match processArg s v with
    | .ok s1 => processTail s1 vs
    | .exit s1 d => .exit s1 d

/-- `processArgs(c)` on the argument vector `args` (`os.Args`): `opt` starts as `nil`,
index 0 is skipped. -/
def processArgs (s : Scanner) (args : List GoString) : Outcome :=
  processTail { s with opt := none } args.tail

/-- `Parse()`: a fresh channel, `Remainder` reset, then `processArgs`. -/
def Parse (s : Scanner) (args : List GoString) : Outcome :=
  processArgs { s with Remainder := [], c := [] } args

/-- Package state after the declarations `options`, with the default prefixes. -/
def initial (options : List Option) : Scanner :=
  { options := options, Remainder := [], ShortSwitch := str "-", LongSwitch := str "--",
    opt := none, c := [] }

/-! ## Vocabulary of the statements -/

/-- Both prefixes have their initial values `"-"` and `"--"`. -/
def DefaultSwitches (s : Scanner) : Prop := s.ShortSwitch = [45] ∧ s.LongSwitch = [45, 45]

/-- Single-byte (ASCII) character that is not white space. -/
def Printable (b : Nat) : Prop := b < 0x80 ∧ isSpace b = false

instance (b : Nat) : Decidable (Printable b) := by unfold Printable; infer_instance

/-- Registry of the end-to-end example: `--name, -n` with a string default and the
boolean flag `--extra, -x`. -/
def regNameX : List Option :=
  Add (Add [] (str "n") (str "name") (str "who") (.string (str "nobody")))
    (str "x") (str "extra") (str "a flag") (.bool false)

/-- Registry with one boolean flag whose long name ends in a blank. -/
def regTrailing : List Option :=
  Add [] (str "v") (str "verbose ") (str "chatty") (.bool false)

/-- Registry after `opt.value = "true"` has been executed through each pointer of
`ptrs`, in order. -/
def setAllTrue (options : List Option) (ptrs : List Nat) : List Option :=
  ptrs.foldl (fun os i => setValue os i (str "true")) options

/-- Registry with the boolean flags `-a`, `-b`, `-c` and a boolean flag whose short
name is a blank. -/
def regFlags : List Option :=
  Add (Add (Add (Add [] (str "a") (str "all") (str "") (.bool false))
    (str "b") (str "brief") (str "") (.bool false))
    (str "c") (str "color") (str "") (.bool false))
    (str " ") (str "blank") (str "") (.bool false)

/-- Shape test of line 129 on a trimmed token, with the default prefix. -/
def LongForm (v : GoString) : Prop := 3 ≤ v.length ∧ v.take 2 = [45, 45]

/-- Shape test of line 149 on a trimmed token, with the default prefix. -/
def ShortForm (v : GoString) : Prop := 2 ≤ v.length ∧ v.take 1 = [45]

instance (v : GoString) : Decidable (LongForm v) := by unfold LongForm; infer_instance

instance (v : GoString) : Decidable (ShortForm v) := by unfold ShortForm; infer_instance

/-- Registry holding a single section header. -/
def regHeader : List Option := Header [] (str "General")

/-- State reached by a run, whether the loop went on or the process exited. -/
def Outcome.state : Outcome → Scanner
  | .ok s => s
  | .exit s _ => s

/-- Did the run end in the unknown-option exit. -/
def Outcome.failed : Outcome → Bool
  | .ok _ => false
  | .exit _ _ => true

/-- Declarations of a registry: the entries with the scanned `value` blanked. -/
def decls (options : List Option) : List Option :=
  options.map (fun o => { o with value := [] })

/-- A token that makes the scan fail, in the words of the claim with the second trim
of the code written in: trimmed, it is of long-switch form and the trimmed rest resolves
to nothing, or it is not of long-switch form, is of short-switch form, and the first
byte of some rune of the trimmed rest resolves to nothing. -/
def Unresolved (options : List Option) (tok : GoString) : Prop :=
  (LongForm (TrimSpace tok) ∧
    findOption options (TrimSpace ((TrimSpace tok).drop 2)) = none) ∨
  (¬ LongForm (TrimSpace tok) ∧ ShortForm (TrimSpace tok) ∧
    ∃ ch ∈ rangeToks 0 (TrimSpace ((TrimSpace tok).drop 1)), findOption options ch = none)

instance (options : List Option) (tok : GoString) : Decidable (Unresolved options tok) := by
  unfold Unresolved; infer_instance

/-- The second state has the declarations and the prefixes of the first: only `value`
fields, `Remainder`, `opt` and the channel may differ. -/
def SameDecls (s s' : Scanner) : Prop :=
  decls s'.options = decls s.options ∧ s'.ShortSwitch = s.ShortSwitch ∧
    s'.LongSwitch = s.LongSwitch

/-- Registry with three value-taking options: `--name, -n`, `--xray, -x` and
`--yankee, -y`. -/
def regXY : List Option :=
  Add (Add (Add [] (str "n") (str "name") (str "who") (.string (str "nobody")))
    (str "x") (str "xray") (str "") (.int 0))
    (str "y") (str "yankee") (str "") (.string [])

/-- From `s` to `s'` only boolean options were sent, each with value `"true"`: the
channel grew by such messages, `Remainder` did not change, and the entries whose
default is not boolean are what they were. -/
def BoolOnly (s s' : Scanner) : Prop :=
  SameDecls s s' ∧ s'.Remainder = s.Remainder ∧
  (∃ sent, s'.c = s.c ++ sent ∧
    ∀ m ∈ sent, isBoolAt s.options m.ptr = true ∧ m.value = str "true") ∧
  ∀ k, isBoolAt s.options k = false → s'.options[k]? = s.options[k]?

/-- The token is empty or a switch (of long or short form) once trimmed: it does not
reach the plain-token branch. -/
def NotPlain (t : GoString) : Prop :=
  TrimSpace t = [] ∨ LongForm (TrimSpace t) ∨ ShortForm (TrimSpace t)

instance (t : GoString) : Decidable (NotPlain t) := by unfold NotPlain; infer_instance

/-- The message with its pointer renamed by `σ`. -/
def Sent.rename (σ : Nat → Nat) (m : Sent) : Sent := ⟨σ m.ptr, m.value⟩

/-- State `s'` is state `s` over a registry redeclared along `σ`: every name resolves in
`s'` to the `σ`-image of what it resolves to in `s`, to an entry of the same kind
(boolean default or not), the pending slots correspond, and both use the default
prefixes. Values, channel and `Remainder` are not compared. -/
def Sim (σ : Nat → Nat) (s s' : Scanner) : Prop :=
  (∀ name, findOption s'.options name = (findOption s.options name).map σ) ∧
  (∀ name i, findOption s.options name = some i →
    isBoolAt s'.options (σ i) = isBoolAt s.options i) ∧
  s'.opt = s.opt.map σ ∧ DefaultSwitches s ∧ DefaultSwitches s'

/-- Outcomes `o` (from `s`) and `o'` (from `s'`) did the same up to `σ`: both failed or
neither, the states still correspond, and what was added to the channel and to
`Remainder` is the same, pointers renamed. -/
def Tracks (σ : Nat → Nat) (s s' : Scanner) (o o' : Outcome) : Prop :=
  o.failed = o'.failed ∧ Sim σ o.state o'.state ∧
  ∃ dc dr, o.state.c = s.c ++ dc ∧ o'.state.c = s'.c ++ dc.map (Sent.rename σ) ∧
    o.state.Remainder = s.Remainder ++ dr ∧ o'.state.Remainder = s'.Remainder ++ dr

/-- The registry `regNameX` declared in the other order. -/
def regXName : List Option :=
  Add (Add [] (str "x") (str "extra") (str "a flag") (.bool false))
    (str "n") (str "name") (str "who") (.string (str "nobody"))

/-- Exchange of the pointers 0 and 1. -/
def swap01 (i : Nat) : Nat := if i = 0 then 1 else if i = 1 then 0 else i

/-- Registry in which the name `name` and the short name `n` are used twice. -/
def regDup : List Option :=
  Add (Add [] (str "n") (str "name") (str "first") (.string []))
    (str "n") (str "name") (str "second") (.int 7)

/-- The tokens that survive the test of line 125: trimmed, they are not empty. -/
def nonBlank (toks : List GoString) : List GoString :=
  toks.filter (fun t => decide (TrimSpace t ≠ []))

/-- What the lookup of `name` leaves in the pending slot: the option found when its
default is not boolean, nothing otherwise. -/
def pendingAfter (options : List Option) (name : GoString) : Ptr :=
  match findOption options name with
  | some i => if isBoolAt options i then none else some i
  | none => none

/-- The last name looked up while a switch token is processed: the trimmed rest of a
long switch, the last one-byte name of a cluster. -/
def lastName (t : GoString) : GoString :=
  if LongForm (TrimSpace t) then TrimSpace ((TrimSpace t).drop 2)
  else (rangeToks 0 (TrimSpace ((TrimSpace t).drop 1))).getLastD []

/-- Registry with the value-taking option `--name, -n` and a boolean flag whose long
name ends in a blank. -/
def regNameTrailing : List Option :=
  Add (Add [] (str "n") (str "name") (str "who") (.string (str "nobody")))
    (str "v") (str "verbose ") (str "chatty") (.bool false)

/-- The registry after the assignments `opt.value = v` that go with the messages `sent`
have been made, in the order of the messages. -/
def replay (options : List Option) (sent : List Sent) : List Option :=
  sent.foldl (fun os m => setValue os m.ptr m.value) options

/-- The value carried by the last message of `sent` for the pointer `k`, if there is
one. -/
def lastSent (sent : List Sent) (k : Nat) :=
  (sent.reverse.find? (fun m => decide (m.ptr = k))).map (fun m => m.value)

/-- From `s` to `s'` the channel grew by messages with valid pointers, the registry is
the old one with exactly the assignments of these messages made, and the pending slot,
if filled, holds a valid pointer. -/
def Grows (s s' : Scanner) : Prop :=
  ∃ sent, s'.c = s.c ++ sent ∧ s'.options = replay s.options sent ∧
    (∀ m ∈ sent, m.ptr < s.options.length) ∧
    ∀ i, s'.opt = some i → i < s.options.length

/-! ## Typed accessors (lines 211-250) and the `strconv` conversions they call -/

/-- Outcome of a call that may panic (a failed type assertion `x.(T)`). -/
inductive Result (α : Type) where
  | ok (v : α)
  | panic
  deriving DecidableEq, Repr

/-- The result passed through a conversion. -/
def Result.map {α β : Type} (f : α → β) : Result α → Result β
  | .ok v => .ok (f v)
  | .panic => .panic

/-- Model of `strconv.Atob`: the accepted spellings of the two truth values. -/
def Atob (s : GoString) : Parsed Bool :=
  if s = str "1" ∨ s = str "t" ∨ s = str "T" ∨ s = str "true" ∨ s = str "TRUE" ∨
      s = str "True" then some true
  else if s = str "0" ∨ s = str "f" ∨ s = str "F" ∨ s = str "false" ∨ s = str "FALSE" ∨
      s = str "False" then some false
  else none

/-- Value of a string of decimal digits, `acc` being the value of the digits read;
`none` at a byte that is not a digit. -/
def parseDigits (acc : Nat) : GoString → Parsed Nat
  | [] => some acc
  | ch :: rest =>
    if 48 ≤ ch ∧ ch ≤ 57 then parseDigits (acc * 10 + (ch - 48)) rest else none

/-- Model of `strconv.Atoui64`: a non-empty string of decimal digits whose value fits
64 bits. -/
def Atoui64 (s : GoString) : Parsed Nat :=
  match s with
  | [] => none
  | _ :: _ =>
    match parseDigits 0 s with
    | some n => if n < 2 ^ 64 then some n else none
    | none => none

/-- Model of `strconv.Atoi64`: an optional sign `+` or `-`, then as `Atoui64`, the
value within the range of `int64`. -/
def Atoi64 (s : GoString) : Parsed Int :=
  match s with
  | [] => none
  | ch :: rest =>
    if ch = 43 then
      match Atoui64 rest with
      | some n => if n < 2 ^ 63 then some (n : Int) else none
      | none => none
    else if ch = 45 then
      match Atoui64 rest with
      | some n => if n ≤ 2 ^ 63 then some (-(n : Int)) else none
      | none => none
    else
      match Atoui64 s with
      | some n => if n < 2 ^ 63 then some (n : Int) else none
      | none => none

/-- Model of `strconv.Atoi`: as `Atoi64`, the value within the range of `int`, which
has `w` bits. -/
def Atoi (w : Nat) (s : GoString) : Parsed Int :=
  match Atoi64 s with
  | some n => if -(2 : Int) ^ (w - 1) ≤ n ∧ n < (2 : Int) ^ (w - 1) then some n else none
  | none => none

/-- Model of `strconv.Atoui`: as `Atoui64`, the value within the range of `uint`, which
has `w` bits. -/
def Atoui (w : Nat) (s : GoString) : Parsed Nat :=
  match Atoui64 s with
  | some n => if n < 2 ^ w then some n else none
  | none => none

/-- Conversion of an integer to a signed type of `bits` bits (`int8(x)`, ...): the
value is wrapped. -/
def toSigned (bits : Nat) (x : Int) : Int :=
  (x + 2 ^ (bits - 1)) % 2 ^ bits - 2 ^ (bits - 1)

/-- Conversion of an integer to an unsigned type of `bits` bits (`uint8(x)`, ...). -/
def toUnsigned (bits : Nat) (x : Int) : Nat := (x % 2 ^ bits).toNat

/-- `func (this *Option) String() string`. -/
def Option.String (o : Option) : GoString := o.value

/-- `func (this *Option) Bool() bool`. -/
def Option.Bool (o : Option) : Bool :=
  match Atob o.value with
  | some b => b
  | none => false

/-- `func (this *Option) Int() int`; `w` is the width of `int`. -/
def Option.Int (w : Nat) (o : Option) : Result ℤ :=
  match Atoi w o.value with
  | some v => .ok v
  | none =>
    match o.defaultval with
    | .int n => .ok n
    | _ => .panic

/-- `func (this *Option) Int8() int8`. -/
def Option.Int8 (w : Nat) (o : Option) : Result ℤ := (o.Int w).map (toSigned 8)

/-- `func (this *Option) Int16() int16`. -/
def Option.Int16 (w : Nat) (o : Option) : Result ℤ := (o.Int w).map (toSigned 16)

/-- `func (this *Option) Int32() int32`. -/
def Option.Int32 (w : Nat) (o : Option) : Result ℤ := (o.Int w).map (toSigned 32)

/-- `func (this *Option) Int64() int64`. -/
def Option.Int64 (o : Option) : Result ℤ :=
  match Atoi64 o.value with
  | some v => .ok v
  | none =>
    match o.defaultval with
    | .int64 n => .ok n
    | _ => .panic

/-- `func (this *Option) Uint() uint`; `w` is the width of `uint`. -/
def Option.Uint (w : Nat) (o : Option) : Result Nat :=
  match Atoui w o.value with
  | some v => .ok v
  | none =>
    match o.defaultval with
    | .uint n => .ok n
    | _ => .panic

/-- `func (this *Option) Uint8() uint8`: the conversion of `this.Int()`. -/
def Option.Uint8 (w : Nat) (o : Option) : Result Nat := (o.Int w).map (toUnsigned 8)

/-- `func (this *Option) Uint16() uint16`: the conversion of `this.Int()`. -/
def Option.Uint16 (w : Nat) (o : Option) : Result Nat := (o.Int w).map (toUnsigned 16)

/-- `func (this *Option) Uint32() uint32`: the conversion of `this.Int()`. -/
def Option.Uint32 (w : Nat) (o : Option) : Result Nat := (o.Int w).map (toUnsigned 32)

/-- `func (this *Option) Uint64() uint64`. -/
def Option.Uint64 (o : Option) : Result Nat :=
  match Atoui64 o.value with
  | some v => .ok v
  | none =>
    match o.defaultval with
    | .uint64 n => .ok n
    | _ => .panic

/-- A boolean option declared with default `true` whose stored value is no boolean. -/
def optMaybe : Option :=
  { Name := str "verbose", ShortName := str "v", Description := str "chatty",
    defaultval := .bool true, value := str "maybe" }

/-- An option declared with a string default whose stored value is no number. -/
def optText : Option :=
  { Name := str "level", ShortName := str "l", Description := str "how much",
    defaultval := .string (str "high"), value := str "abc" }

/-- An option declared with the `int` default 5 whose stored value is no number. -/
def optFive : Option :=
  { Name := str "count", ShortName := str "c", Description := str "how many",
    defaultval := .int 5, value := str "abc" }

/-! ## `Usage` (lines 48-108) -/

/-- Decimal digits of `n`, most significant first, in front of `acc`; `fuel` bounds the
number of digits. -/
def digitsAux : Nat → Nat → GoString → GoString
  | 0, _, acc => acc
  | fuel + 1, n, acc =>
    if n < 10 then (48 + n) :: acc else digitsAux fuel (n / 10) ((48 + n % 10) :: acc)

/-- Decimal representation of a natural number. -/
def decimal (n : Nat) : GoString := digitsAux (n + 1) n []

/-- Text of a dynamic value under the verb `%v` of package `fmt`. -/
def fmtV : Iface → GoString
  | .nil => str "<nil>"
  | .bool b => if b then str "true" else str "false"
  | .int n => if n < 0 then 45 :: decimal n.natAbs else decimal n.natAbs
  | .int64 n => if n < 0 then 45 :: decimal n.natAbs else decimal n.natAbs
  | .uint n => decimal n
  | .uint64 n => decimal n
  | .string t => t

/-- The label of an entry, `fmt.Sprintf("%s%s, %s%s: ", LongSwitch, v.Name, ShortSwitch,
v.ShortName)` of lines 59 and 77. -/
def label (s : Scanner) (v : Option) : GoString :=
  s.LongSwitch ++ v.Name ++ str ", " ++ s.ShortSwitch ++ v.ShortName ++ str ": "

/-- The loop of lines 54-63 with the running value of `offset`. -/
def labelWidth (s : Scanner) : List Option → Nat → Nat
  | [], offset => offset
  | v :: vs, offset =>
    if v.ShortName = headerName then labelWidth s vs offset
    else if (label s v).length > offset then labelWidth s vs (label s v).length
    else labelWidth s vs offset

/-- The value of `offset` after `offset++` (line 65). -/
def usageOffset (s : Scanner) : Nat := labelWidth s s.options 0 + 1

/-- `fmt.Sprintf("%<w>s", t)`: `t` padded on the left with blanks to the width `w`,
measured in runes as package `fmt` does. -/
def padLeft (w : Nat) (t : GoString) : GoString :=
  List.replicate (w - (runes t).length) 32 ++ t

/-- The description handed to the wrapping routine (lines 81-88). -/
def describe (v : Option) : GoString :=
  if v.defaultval.isBool then v.Description
  else if fmtV v.defaultval ≠ [] then
    v.Description ++ str " (defaults to: " ++ fmtV v.defaultval ++ str ")"
  else v.Description

/-- What `Usage` has written: the texts of the successive `fmt.Printf` calls, and
whether it was stopped by a panic (`lines[0]` on an empty result of the wrapper). -/
structure Printed where
  out : List GoString
  panicked : Bool
  deriving DecidableEq, Repr

/-- The loop of lines 69-107 over the entries still to print, after `out`. `wrap` is
the wrapping routine `multilineWrap` of `string.go` with its last argument fixed to
`ALIGN_LEFT`. -/
def usageLoop (wrap : GoString → Nat → Nat → Nat → List GoString) (s : Scanner)
    (offset : Nat) : List Option → List GoString → Printed
  | [], out => ⟨out, false⟩
  | v :: vs, out =>
    if v.ShortName = headerName then
      usageLoop wrap s offset vs (out ++ [str "\n[" ++ v.Description ++ str "]\n"])
    else
      match wrap (describe v) 80 offset 0 with
      | [] => ⟨out ++ [padLeft offset (label s v)], true⟩
      | l0 :: rest =>
        usageLoop wrap s offset vs
          (out ++ [padLeft offset (label s v)] ++ [TrimSpace l0 ++ str "\n"] ++
            rest.map (fun l => l ++ str "\n"))

/-- `Usage()`, with the package variable `UsageInfo` and the wrapping routine as
arguments. -/
def Usage (wrap : GoString → Nat → Nat → Nat → List GoString) (UsageInfo : GoString)
    (s : Scanner) : Printed :=
  usageLoop wrap s (usageOffset s) s.options [UsageInfo ++ str "\n"]

/-- Words of a text: the stretches between single blanks. -/
def splitWords : GoString → List GoString
  | [] => [[]]
  | ch :: rest =>
    if ch = 32 then [] :: splitWords rest
    else
      match splitWords rest with
      | w :: ws => (ch :: w) :: ws
      | [] => [[ch]]

/-- Greedy filling of lines of at most `width` bytes: `cur` is the line under
construction, a word that no longer fits starts a new line and is never cut. -/
def fillLines (width : Nat) : GoString → List GoString → List GoString
  | cur, [] => [cur]
  | cur, w :: ws =>
    if cur.length + 1 + w.length ≤ width then fillLines width (cur ++ 32 :: w) ws
    else cur :: fillLines width w ws

/-- Modelled from the spec: the wrapping routine `multilineWrap(text, linesize,
leftmargin, rightmargin, ALIGN_LEFT)` of `string.go`, which is not among the sources.
Spec 4.3 and 8: the text is word-wrapped to lines of `linesize - leftmargin -
rightmargin` bytes; every line carries the indentation of `leftmargin` blanks; a word
is never split, a word longer than the width has a line of its own; a text shorter than
the width comes back unchanged on a single line. -/
def multilineWrap (text : GoString) (linesize leftmargin rightmargin : Nat) :
    List GoString :=
  match splitWords text with
  | [] => [List.replicate leftmargin 32]
  | w :: ws =>
    (fillLines (linesize - leftmargin - rightmargin) w ws).map
      (fun l => List.replicate leftmargin 32 ++ l)

/-- Largest length of the label of a non-header entry, 0 when there is none. -/
def maxLabel (s : Scanner) : Nat :=
  ((s.options.filter (fun v => decide (v.ShortName ≠ headerName))).map
    (fun v => (label s v).length)).foldr max 0

/-- Registry of the usage example: a header, the boolean flag `--verbose, -v` and
`--count, -c` with the default 5. -/
def regUsage : List Option :=
  Add (Add (Header [] (str "General")) (str "v") (str "verbose") (str "be chatty")
    (.bool false)) (str "c") (str "count") (str "how many times") (.int 5)

/-- Entry `--verbose, -v` of `regUsage`. -/
def optVerbose : Option :=
  { Name := str "verbose", ShortName := str "v", Description := str "be chatty",
    defaultval := .bool false, value := [] }

/-- Entry `--count, -c` of `regUsage`. -/
def optCount : Option :=
  { Name := str "count", ShortName := str "c", Description := str "how many times",
    defaultval := .int 5, value := [] }

/-- A boolean option whose description begins with a blank. -/
def optLead : Option :=
  { Name := str "quiet", ShortName := str "q", Description := str " no output",
    defaultval := .bool false, value := [] }

/-! # Properties -/

theorem decodeRune_ascii (a : Nat) (s : GoString) (h : a < 0x80) :
    decodeRune (a :: s) = (a, 1) := by
  simp [decodeRune, h]

theorem decodeRune_width_pos (c0 : Nat) (rest : GoString) :
    1 ≤ (decodeRune (c0 :: rest)).2 := by
  rcases rest with _ | ⟨c1, _ | ⟨c2, _ | ⟨c3, rest⟩⟩⟩ <;>
    simp only [decodeRune, decode2, decode3, decode4] <;> split_ifs <;> simp

theorem runesAux_flatten (f : Nat) : ∀ s : GoString, s.length ≤ f →
    (runesAux f s).flatten = s := by
  induction f with
  | zero => intro s h; cases s <;> simp_all [runesAux]
  | succ f ih =>
    intro s h
    cases s with
    | nil => simp [runesAux]
    | cons c0 rest =>
      have hw := decodeRune_width_pos c0 rest
      rw [runesAux, List.flatten_cons, ih, List.take_append_drop]
      simp only [List.length_drop, List.length_cons] at h ⊢
      omega

theorem runesAux_ne_nil (f : Nat) : ∀ s : GoString, ∀ g ∈ runesAux f s, g ≠ [] := by
  induction f with
  | zero => intro s g h; cases s <;> simp [runesAux] at h
  | succ f ih =>
    intro s g h
    cases s with
    | nil => simp [runesAux] at h
    | cons c0 rest =>
      have hw := decodeRune_width_pos c0 rest
      rw [runesAux, List.mem_cons] at h
      rcases h with h | h
      · subst h
        intro h0
        have := congrArg List.length h0
        simp at this
        omega
      · exact ih _ g h

theorem runes_flatten (s : GoString) : (runes s).flatten = s :=
  runesAux_flatten s.length s le_rfl

theorem runes_cons_ascii (a : Nat) (s : GoString) (h : a < 0x80) :
    runes (a :: s) = [a] :: runes s := by
  simp [runes, runesAux, decodeRune_ascii a s h]


theorem runes_eq_nil_iff (s : GoString) : runes s = [] ↔ s = [] := by
  constructor
  · intro h
    have := runes_flatten s
    rw [h] at this
    simpa using this.symm
  · rintro rfl
    rfl

theorem runes_ascii (s : GoString) (h : ∀ b ∈ s, b < 0x80) :
    runes s = s.map (fun b => [b]) := by
  induction s with
  | nil => rfl
  | cons a s ih =>
    rw [runes_cons_ascii a s (h a (List.mem_cons_self _ _)),
      ih (fun b hb => h b (List.mem_cons_of_mem _ hb))]
    rfl

theorem spaceRune_ascii (a : Nat) (h : a < 0x80) : spaceRune [a] = isSpace a := by
  simp [spaceRune, decodeRune_ascii a [] h]

theorem TrimSpace_keep (s : GoString)
    (h1 : (runes s).dropWhile spaceRune = runes s)
    (h2 : (runes s).rdropWhile spaceRune = runes s) : TrimSpace s = s := by
  rw [TrimSpace, h1, h2, runes_flatten]

theorem TrimSpace_fixed (s : GoString) (h : TrimSpace s = s) :
    (runes s).dropWhile spaceRune = runes s ∧ (runes s).rdropWhile spaceRune = runes s := by
  obtain ⟨B, hB⟩ : ∃ B, ((runes s).dropWhile spaceRune).rdropWhile spaceRune ++ B
      = (runes s).dropWhile spaceRune := List.rdropWhile_prefix _ _
  have hR := List.takeWhile_append_dropWhile spaceRune (runes s)
  have hne : ∀ g ∈ runes s, g ≠ [] := runesAux_ne_nil _ _
  have hlen : (runes s).flatten.length = s.length := by rw [runes_flatten]
  have hM : (((runes s).dropWhile spaceRune).rdropWhile spaceRune).flatten.length
      = s.length := by
    have := congrArg List.length h
    simpa [TrimSpace] using this
  rw [← hR, ← hB] at hlen
  simp only [List.flatten_append, List.length_append] at hlen
  have hA : (runes s).takeWhile spaceRune = [] := by
    by_contra hA
    obtain ⟨g, gs, hg⟩ := List.exists_cons_of_ne_nil hA
    have hgm : g ∈ runes s := by
      rw [← hR, hg]; simp
    have := hne g hgm
    rw [hg] at hlen
    cases g with
    | nil => exact this rfl
    | cons x xs => simp [List.length_flatten] at hlen hM; omega
  have hB0 : B = [] := by
    by_contra hB0
    obtain ⟨g, gs, hg⟩ := List.exists_cons_of_ne_nil hB0
    have hgm : g ∈ runes s := by
      rw [← hR, ← hB, hg]; simp
    have := hne g hgm
    rw [hg] at hlen
    cases g with
    | nil => exact this rfl
    | cons x xs => simp [List.length_flatten] at hlen hM; omega
  have hD : (runes s).dropWhile spaceRune = runes s := by
    rw [hA] at hR; simpa using hR
  refine ⟨hD, ?_⟩
  rw [hB0, hD] at hB
  simpa using hB

theorem rdropWhile_cons_keep {α : Type} (p : α → Bool) (a : α) (R : List α) (hR : R ≠ [])
    (h : R.rdropWhile p = R) : (a :: R).rdropWhile p = a :: R := by
  rw [List.rdropWhile_eq_self_iff] at h ⊢
  intro hl
  rw [List.getLast_cons hR]
  exact h hR

theorem TrimSpace_cons_ascii (a : Nat) (n : GoString) (ha : a < 0x80)
    (hsp : isSpace a = false) (hn : n ≠ []) (h : TrimSpace n = n) :
    TrimSpace (a :: n) = a :: n := by
  obtain ⟨-, h2⟩ := TrimSpace_fixed n h
  have hne : runes n ≠ [] := fun h0 => hn ((runes_eq_nil_iff n).1 h0)
  apply TrimSpace_keep
  · rw [runes_cons_ascii a n ha, List.dropWhile_cons, spaceRune_ascii a ha, hsp]
    simp
  · rw [runes_cons_ascii a n ha]
    exact rdropWhile_cons_keep _ _ _ hne h2

theorem TrimSpace_single (a : Nat) (ha : a < 0x80) (hsp : isSpace a = false) :
    TrimSpace [a] = [a] := by
  simp [TrimSpace, runes, runesAux, decodeRune_ascii a [] ha, List.rdropWhile,
    spaceRune_ascii a ha, hsp]

theorem str_dash : str "-" = [45] := by decide
theorem str_dashes : str "--" = [45, 45] := by decide

theorem findOption_setValue (options : List Option) (i : Nat) (v name : GoString) :
    findOption (setValue options i v) name = findOption options name := by
  induction options generalizing i with
  | nil => simp [setValue]
  | cons o rest ih =>
    cases i with
    | zero => simp [setValue, findOption]
    | succ i => simp [setValue, findOption, ih i]

theorem isBoolAt_setValue (options : List Option) (i k : Nat) (v : GoString) :
    isBoolAt (setValue options i v) k = isBoolAt options k := by
  induction options generalizing i k with
  | nil => simp [setValue]
  | cons o rest ih =>
    cases i with
    | zero => cases k <;> simp [setValue, isBoolAt]
    | succ i =>
      cases k with
      | zero => simp [setValue, isBoolAt]
      | succ k =>
        have := ih i k
        simp only [isBoolAt] at this
        simpa [setValue, isBoolAt] using this

theorem processArg_plain (s : Scanner) (hd : DefaultSwitches s) (t : GoString)
    (ht : TrimSpace t ≠ []) (hp : ¬ [45] <+: TrimSpace t) :
    processArg s t = match s.opt with
      | none => .ok { s with Remainder := s.Remainder ++ [TrimSpace t] }
      | some i => .ok (emit s i (TrimSpace t)) := by
  obtain ⟨hS, hL⟩ := hd
  cases hv : TrimSpace t with
  | nil => exact absurd hv ht
  | cons a v =>
    have ha : a ≠ 45 := by
      rintro rfl
      apply hp
      rw [hv]
      exact ⟨v, rfl⟩
    have h1 : ¬ (3 ≤ (a :: v).length ∧ (a :: v).take 2 = s.LongSwitch) := by
      rw [hL]
      rintro ⟨-, h⟩
      cases v <;> simp at h
      exact ha h.1
    have h2 : ¬ (2 ≤ (a :: v).length ∧ (a :: v).take 1 = s.ShortSwitch) := by
      rw [hS]
      rintro ⟨-, h⟩
      simp at h
      exact ha h
    simp only [processArg, hv]
    rw [if_neg (by simp), if_neg h1, if_neg h2]

theorem processArg_long (s : Scanner) (hd : DefaultSwitches s) (n : GoString)
    (hn : n ≠ []) (ht : TrimSpace n = n) :
    processArg s (45 :: 45 :: n) = switchName (str "--") s n := by
  obtain ⟨hS, hL⟩ := hd
  have h1 : TrimSpace (45 :: n) = 45 :: n :=
    TrimSpace_cons_ascii 45 n (by decide) (by decide) hn ht
  have h2 : TrimSpace (45 :: 45 :: n) = 45 :: 45 :: n :=
    TrimSpace_cons_ascii 45 _ (by decide) (by decide) (by simp) h1
  obtain ⟨a, v, rfl⟩ := List.exists_cons_of_ne_nil hn
  simp [processArg, h2, hL, ht]

theorem TrimSpace_printable (cs : GoString) (h : ∀ b ∈ cs, Printable b) :
    TrimSpace cs = cs := by
  induction cs with
  | nil => rfl
  | cons a cs ih =>
    have ha := h a (List.mem_cons_self _ _)
    cases cs with
    | nil => exact TrimSpace_single a ha.1 ha.2
    | cons b cs =>
      exact TrimSpace_cons_ascii a _ ha.1 ha.2 (by simp)
        (ih (fun x hx => h x (List.mem_cons_of_mem _ hx)))

theorem rangeToks_ascii (cs : GoString) (h : ∀ b ∈ cs, b < 0x80) :
    rangeToks 0 cs = cs.map (fun b => [b]) := by
  induction cs with
  | nil => rfl
  | cons a cs ih =>
    rw [rangeToks, decodeRune_ascii a cs (h a (List.mem_cons_self _ _))]
    show [a] :: rangeToks 0 cs = _
    rw [ih (fun b hb => h b (List.mem_cons_of_mem _ hb))]
    rfl

theorem processArg_short (s : Scanner) (hd : DefaultSwitches s) (cs : GoString)
    (hne : cs ≠ []) (hp : ∀ b ∈ cs, Printable b)
    (hl : ¬ (2 ≤ cs.length ∧ cs.head? = some 45)) :
    processArg s (45 :: cs) = cluster s (cs.map (fun b => [b])) := by
  obtain ⟨hS, hL⟩ := hd
  have h1 : TrimSpace cs = cs := TrimSpace_printable cs hp
  have h2 : TrimSpace (45 :: cs) = 45 :: cs :=
    TrimSpace_cons_ascii 45 cs (by decide) (by decide) hne h1
  have h3 : ¬ (3 ≤ (45 :: cs).length ∧ (45 :: cs).take 2 = s.LongSwitch) := by
    rw [hL]
    rintro ⟨h, h'⟩
    apply hl
    obtain ⟨a, v, rfl⟩ := List.exists_cons_of_ne_nil hne
    simp at h h' ⊢
    omega
  have h4 : 2 ≤ (45 :: cs).length ∧ (45 :: cs).take 1 = s.ShortSwitch := by
    rw [hS]
    obtain ⟨a, v, rfl⟩ := List.exists_cons_of_ne_nil hne
    simp
  have h5 : ¬ cs.length = 0 := by
    obtain ⟨a, v, rfl⟩ := List.exists_cons_of_ne_nil hne
    simp
  simp only [processArg, h2]
  rw [if_neg (by simp), if_neg h3, if_pos h4]
  simp only [List.drop_succ_cons, List.drop_zero, h1]
  rw [if_neg h5, rangeToks_ascii cs (fun b hb => (hp b hb).1)]

theorem findOption_eq_some_iff (options : List Option) (name : GoString) (i : Nat) :
    findOption options name = some i ↔
      (∃ o, options[i]? = some o ∧ (o.Name = name ∨ o.ShortName = name)) ∧
      ∀ k o, k < i → options[k]? = some o → ¬ (o.Name = name ∨ o.ShortName = name) := by
  induction options generalizing i with
  | nil => simp [findOption]
  | cons o rest ih =>
    by_cases ho : o.Name = name ∨ o.ShortName = name
    · rw [findOption, if_pos ho]
      constructor
      · intro h
        obtain rfl : 0 = i := by simpa using h
        exact ⟨⟨o, by simp, ho⟩, by simp⟩
      · rintro ⟨-, h⟩
        cases i with
        | zero => rfl
        | succ i => exact absurd ho (h 0 o (by omega) (by simp))
    · rw [findOption, if_neg ho]
      cases i with
      | zero =>
        constructor
        · intro h
          simp at h
        · rintro ⟨⟨o', ho', hm⟩, -⟩
          simp at ho'
          subst ho'
          exact absurd hm ho
      | succ i =>
        rw [Option.map_eq_some', ]
        constructor
        · rintro ⟨j, hj, hji⟩
          obtain rfl : j = i := by omega
          obtain ⟨h1, h2⟩ := (ih j).1 hj
          refine ⟨by simpa using h1, ?_⟩
          intro k o' hk hget
          cases k with
          | zero =>
            simp at hget
            subst hget
            exact ho
          | succ k => exact h2 k o' (by omega) (by simpa using hget)
        · rintro ⟨h1, h2⟩
          refine ⟨i, (ih i).2 ⟨by simpa using h1, ?_⟩, rfl⟩
          intro k o' hk hget
          exact h2 (k + 1) o' (by omega) (by simpa using hget)

theorem switchName_bool (d : GoString) (s : Scanner) (name : GoString) (i : Nat)
    (hf : findOption s.options name = some i) (hb : isBoolAt s.options i = true) :
    switchName d s name = .ok (emit s i (str "true")) := by
  simp [switchName, hf, hb]

theorem switchName_pending (d : GoString) (s : Scanner) (name : GoString) (i : Nat)
    (hf : findOption s.options name = some i) (hb : isBoolAt s.options i = false) :
    switchName d s name = .ok { s with opt := some i } := by
  simp [switchName, hf, hb]

theorem switchName_unknown (d : GoString) (s : Scanner) (name : GoString)
    (hf : findOption s.options name = none) :
    switchName d s name = .exit { s with opt := none }
      (str "Unknown option '" ++ d ++ name ++ str "' specified.\n") := by
  simp [switchName, hf]

theorem isBoolAt_of_get (options : List Option) (i : Nat) (o : Option)
    (h : options[i]? = some o) : isBoolAt options i = o.defaultval.isBool := by
  simp [isBoolAt, h]

/-- C1. End-to-end example. In any registry where `name` resolves to an option `i` whose
default is not boolean (a string-valued option) and `x` resolves to an option `j` with
a boolean default, scanning `["prog", "--name", "Alice", "-x", "extra", "stray"]`
ends normally; the channel carries exactly option `i` with value `"Alice"` and then
option `j` with value `"true"`, and `Remainder` is `["extra", "stray"]`. -/
theorem C1_end_to_end_example (options : List Option) (i j : Nat) (prog : GoString)
    (hname : findOption options (str "name") = some i)
    (hstr : isBoolAt options i = false)
    (hx : findOption options (str "x") = some j)
    (hbool : isBoolAt options j = true) :
    Parse (initial options)
        [prog, str "--name", str "Alice", str "-x", str "extra", str "stray"] =
      .ok { initial (setValue (setValue options i (str "Alice")) j (str "true")) with
            Remainder := [str "extra", str "stray"]
            c := [⟨i, str "Alice"⟩, ⟨j, str "true"⟩] } := by
  have e1 : ∀ s : Scanner, DefaultSwitches s →
      processArg s (str "--name") = switchName (str "--") s (str "name") := fun s hd =>
    processArg_long s hd (str "name") (by decide) (by decide)
  have e2 : ∀ s : Scanner, DefaultSwitches s →
      processArg s (str "-x") = cluster s [str "x"] := fun s hd =>
    processArg_short s hd (str "x") (by decide) (by decide) (by decide)
  have e3 : ∀ (s : Scanner) (w : GoString), DefaultSwitches s → TrimSpace w = w → w ≠ [] →
      ¬ [45] <+: w → processArg s w = match s.opt with
        | none => .ok { s with Remainder := s.Remainder ++ [w] }
        | some i => .ok (emit s i w) := fun s w hd hw h1 h2 => by
    have := processArg_plain s hd w (by rw [hw]; exact h1) (by rw [hw]; exact h2)
    rw [hw] at this
    exact this
  simp only [Parse, processArgs, List.tail_cons, processTail]
  rw [e1 _ ⟨rfl, rfl⟩, switchName_pending _ _ _ i hname hstr]
  simp only [initial]
  rw [e3 _ (str "Alice") ⟨rfl, rfl⟩ (by decide) (by decide) (by decide)]
  simp only [emit]
  rw [e2 _ ⟨rfl, rfl⟩]
  simp only [cluster]
  rw [switchName_bool _ _ _ j (by simpa [findOption_setValue] using hx)
    (by simpa [isBoolAt_setValue] using hbool)]
  simp only [emit]
  rw [e3 _ (str "extra") ⟨rfl, rfl⟩ (by decide) (by decide) (by decide)]
  simp only []
  rw [e3 _ (str "stray") ⟨rfl, rfl⟩ (by decide) (by decide) (by decide)]
  simp

/-- Instance of C1 on the registry `regNameX`. -/
theorem C1_end_to_end_example_witness :
    findOption regNameX (str "name") = some 0 ∧ isBoolAt regNameX 0 = false ∧
    findOption regNameX (str "x") = some 1 ∧ isBoolAt regNameX 1 = true ∧
    Parse (initial regNameX)
        [str "prog", str "--name", str "Alice", str "-x", str "extra", str "stray"] =
      .ok { initial (setValue (setValue regNameX 0 (str "Alice")) 1 (str "true")) with
            Remainder := [str "extra", str "stray"]
            c := [⟨0, str "Alice"⟩, ⟨1, str "true"⟩] } :=
  ⟨by decide, by decide, by decide, by decide,
    C1_end_to_end_example regNameX 0 1 (str "prog") (by decide) (by decide) (by decide)
      (by decide)⟩

theorem findOption_of_only (options : List Option) (name : GoString) (i : Nat) (o : Option)
    (hget : options[i]? = some o) (hm : o.Name = name ∨ o.ShortName = name)
    (huniq : ∀ k o', options[k]? = some o' → k ≠ i → o'.Name ≠ name ∧ o'.ShortName ≠ name) :
    findOption options name = some i := by
  rw [findOption_eq_some_iff]
  refine ⟨⟨o, hget, hm⟩, ?_⟩
  intro k o' hk hget' hm'
  have := huniq k o' hget' (by omega)
  rcases hm' with h | h
  · exact this.1 h
  · exact this.2 h

/-- C2 (as amended). A switch followed by its value. If `o`, at index `i`, is the only
entry of the registry having `n` as name or short name, `n` is non-empty and has no
surrounding white space, and the default of `o` is not boolean, then for every token
`t` whose trimmed form is non-empty and does not begin with `-`, scanning
`[prog, "--" ++ n, t]` ends normally with exactly one message on the channel, option
`i` carrying the trimmed `t`, and with `Remainder` empty. -/
theorem C2_switch_then_value (options : List Option) (i : Nat) (o : Option)
    (n t prog : GoString)
    (hget : options[i]? = some o) (hname : o.Name = n)
    (huniq : ∀ k o', options[k]? = some o' → k ≠ i → o'.Name ≠ n ∧ o'.ShortName ≠ n)
    (hn : n ≠ []) (hntrim : TrimSpace n = n)
    (hnb : o.defaultval.isBool = false)
    (ht : TrimSpace t ≠ []) (htp : ¬ str "-" <+: TrimSpace t) :
    Parse (initial options) [prog, str "--" ++ n, t] =
      .ok { initial (setValue options i (TrimSpace t)) with
            Remainder := []
            c := [⟨i, TrimSpace t⟩] } := by
  have hf := findOption_of_only options n i o hget (Or.inl hname) huniq
  have hb : isBoolAt options i = false := by rw [isBoolAt_of_get options i o hget, hnb]
  rw [str_dash] at htp
  simp only [Parse, processArgs, List.tail_cons, processTail, str_dashes, List.cons_append,
    List.nil_append]
  rw [processArg_long _ ⟨rfl, rfl⟩ n hn hntrim, switchName_pending _ _ _ i hf hb]
  simp only [initial]
  rw [processArg_plain _ ⟨rfl, rfl⟩ t ht htp]
  simp [emit]

/-- Instance of C2: `--name Alice` on the registry `regNameX`. -/
theorem C2_switch_then_value_witness :
    Parse (initial regNameX) [str "prog", str "--" ++ str "name", str " Alice "] =
      .ok { initial (setValue regNameX 0 (TrimSpace (str " Alice "))) with
            Remainder := []
            c := [⟨0, TrimSpace (str " Alice ")⟩] } :=
  C2_switch_then_value regNameX 0
    { Name := str "name", ShortName := str "n", Description := str "who",
      defaultval := .string (str "nobody"), value := [] }
    (str "name") (str " Alice ") (str "prog") (by decide) rfl
    (by
      intro k o' hk hki
      match k, hk, hki with
      | 0, _, h => exact absurd rfl h
      | 1, hk, _ =>
        obtain rfl : _ = o' := by simpa [regNameX, Add] using hk
        decide
      | k + 2, hk, _ => simp [regNameX, Add] at hk)
    (by decide) (by decide) rfl (by decide) (by decide)

/-- C2 as stated fails: the prefix test is made on the trimmed token, not on the token.
In `regNameX` the entry `name` is the only one with that name and its default is a
string; the token `" -x"` is non-empty after trimming and does not itself begin with
`-`; yet in `[prog, "--name", " -x"]` it is trimmed to `-x` (line 125) and taken as the
short switch of the boolean flag `x`: `x` is sent with `"true"`, `name` is never sent
and keeps its value. -/
theorem C2_counterexample :
    regNameX.map (fun o => (o.Name, o.ShortName)) =
      [(str "name", str "n"), (str "extra", str "x")] ∧
    isBoolAt regNameX 0 = false ∧
    TrimSpace (str "name") = str "name" ∧
    TrimSpace (str " -x") ≠ [] ∧
    ¬ str "-" <+: str " -x" ∧
    Parse (initial regNameX) [str "prog", str "--" ++ str "name", str " -x"] =
      .ok { initial (setValue regNameX 1 (str "true")) with
            Remainder := []
            c := [⟨1, str "true"⟩] } := by
  decide

theorem processArg_switch_bool (s : Scanner) (hd : DefaultSwitches s) (i : Nat)
    (sw name : GoString) (hf : findOption s.options name = some i)
    (hb : isBoolAt s.options i = true)
    (hsw : (sw = str "--" ++ name ∧ name ≠ [] ∧ TrimSpace name = name) ∨
      (sw = str "-" ++ name ∧ ∃ ch, name = [ch] ∧ Printable ch)) :
    processArg s sw = .ok (emit s i (str "true")) := by
  rcases hsw with ⟨rfl, hn, ht⟩ | ⟨rfl, ch, rfl, hch⟩
  · rw [str_dashes]
    exact (processArg_long s hd name hn ht).trans (switchName_bool _ s name i hf hb)
  · rw [str_dash]
    have := processArg_short s hd [ch] (by simp) (by simpa using hch) (by simp)
    simp only [List.map_cons, List.map_nil, cluster] at this
    rw [switchName_bool _ s [ch] i hf hb] at this
    exact this

/-- C3 (as amended). A boolean switch is emitted at once and swallows nothing. Let `b`
be the entry at index `i`, with a boolean default, and let `sw` be either `"--"`
followed by the name of `b`, that name being non-empty, free of surrounding white space
and resolving to `i`, or `"-"` followed by the short name of `b`, that short name being
one single-byte non-blank character resolving to `i`. Then scanning `[prog, sw]` sends
exactly option `i` with value `"true"`, and for every token `t` whose trimmed form is
non-empty and does not begin with `-`, scanning `[prog, sw, t]` sends exactly the same
message and puts the trimmed `t` into `Remainder`. -/
theorem C3_boolean_switch_emits_at_once (options : List Option) (i : Nat) (b : Option)
    (sw t prog : GoString)
    (hget : options[i]? = some b) (hbool : b.defaultval.isBool = true)
    (hsw : (sw = str "--" ++ b.Name ∧ b.Name ≠ [] ∧ TrimSpace b.Name = b.Name ∧
              findOption options b.Name = some i) ∨
           (sw = str "-" ++ b.ShortName ∧ (∃ ch, b.ShortName = [ch] ∧ Printable ch) ∧
              findOption options b.ShortName = some i))
    (ht : TrimSpace t ≠ []) (htp : ¬ str "-" <+: TrimSpace t) :
    Parse (initial options) [prog, sw] =
        .ok { initial (setValue options i (str "true")) with
              Remainder := []
              c := [⟨i, str "true"⟩] } ∧
    Parse (initial options) [prog, sw, t] =
        .ok { initial (setValue options i (str "true")) with
              Remainder := [TrimSpace t]
              c := [⟨i, str "true"⟩] } := by
  have hb : isBoolAt options i = true := by rw [isBoolAt_of_get options i b hget, hbool]
  rw [str_dash] at htp
  have hstep : processArg { initial options with Remainder := [], c := [], opt := none } sw =
      .ok (emit { initial options with Remainder := [], c := [], opt := none } i
        (str "true")) := by
    rcases hsw with ⟨h1, h2, h3, h4⟩ | ⟨h1, h2, h3⟩
    · exact processArg_switch_bool _ ⟨rfl, rfl⟩ i sw b.Name h4 hb (Or.inl ⟨h1, h2, h3⟩)
    · exact processArg_switch_bool _ ⟨rfl, rfl⟩ i sw b.ShortName h3 hb (Or.inr ⟨h1, h2⟩)
  constructor
  · simp only [Parse, processArgs, List.tail_cons, processTail]
    simp only [initial] at hstep ⊢
    rw [hstep]
    simp [emit]
  · simp only [Parse, processArgs, List.tail_cons, processTail]
    simp only [initial] at hstep ⊢
    rw [hstep]
    simp only [emit]
    rw [processArg_plain _ ⟨rfl, rfl⟩ t ht htp]
    simp

/-- Instance of C3: `-x file` on the registry `regNameX`. -/
theorem C3_boolean_switch_emits_at_once_witness :
    Parse (initial regNameX) [str "prog", str "-x"] =
        .ok { initial (setValue regNameX 1 (str "true")) with
              Remainder := []
              c := [⟨1, str "true"⟩] } ∧
    Parse (initial regNameX) [str "prog", str "-x", str "file"] =
        .ok { initial (setValue regNameX 1 (str "true")) with
              Remainder := [TrimSpace (str "file")]
              c := [⟨1, str "true"⟩] } :=
  C3_boolean_switch_emits_at_once regNameX 1
    { Name := str "extra", ShortName := str "x", Description := str "a flag",
      defaultval := .bool false, value := [] }
    (str "-x") (str "file") (str "prog") (by decide) rfl
    (Or.inr ⟨by decide, ⟨120, by decide, by decide⟩, by decide⟩) (by decide) (by decide)

/-- C3 as stated fails: in `regTrailing` the only entry is boolean and is the first
match for its own name `"verbose "`, yet scanning `[prog, "--" ++ name, "file"]` sends
nothing and ends in the unknown-option exit, because the token is trimmed before the
lookup. -/
theorem C3_counterexample :
    regTrailing[0]?.map (fun b => b.defaultval.isBool) = some true ∧
    findOption regTrailing (str "verbose ") = some 0 ∧
    Parse (initial regTrailing) [str "prog", str "--" ++ str "verbose ", str "file"] =
      .exit (initial regTrailing) (str "Unknown option '--verbose' specified.\n") := by
  decide

theorem TrimSpace_ascii (s : GoString) (hascii : ∀ b ∈ s, b < 0x80)
    (hh : ∀ a, s.head? = some a → isSpace a = false)
    (hl : ∀ z, s.getLast? = some z → isSpace z = false) : TrimSpace s = s := by
  apply TrimSpace_keep
  · rw [runes_ascii s hascii]
    cases s with
    | nil => rfl
    | cons a s =>
      rw [List.map_cons, List.dropWhile_cons,
        spaceRune_ascii a (hascii a (List.mem_cons_self _ _)), hh a rfl]
      simp
  · rw [runes_ascii s hascii]
    rcases List.eq_nil_or_concat s with rfl | ⟨init, z, rfl⟩
    · rfl
    · rw [List.concat_eq_append] at hascii hl ⊢
      have hz : isSpace z = false := hl z (by simp)
      rw [List.map_append, List.map_cons, List.map_nil]
      apply List.rdropWhile_concat_neg
      rw [spaceRune_ascii z (hascii z (by simp)), hz]
      simp

theorem processArg_cluster (s : Scanner) (hd : DefaultSwitches s) (cs : GoString)
    (hne : cs ≠ []) (hascii : ∀ b ∈ cs, b < 0x80)
    (hh : ∀ a, cs.head? = some a → isSpace a = false)
    (hl : ∀ z, cs.getLast? = some z → isSpace z = false)
    (hlong : ¬ (2 ≤ cs.length ∧ cs.head? = some 45)) :
    processArg s (45 :: cs) = cluster s (cs.map (fun b => [b])) := by
  obtain ⟨hS, hL⟩ := hd
  obtain ⟨a, v, rfl⟩ := List.exists_cons_of_ne_nil hne
  have h1 : TrimSpace (a :: v) = a :: v := TrimSpace_ascii _ hascii hh hl
  have h2 : TrimSpace (45 :: a :: v) = 45 :: a :: v := by
    apply TrimSpace_ascii
    · intro b hb
      rcases List.mem_cons.1 hb with rfl | hb
      · decide
      · exact hascii b hb
    · intro x hx
      obtain rfl : 45 = x := by simpa using hx
      decide
    · intro z hz
      apply hl z
      rw [← hz]
      simp [List.getLast?_cons_cons]
  have h3 : ¬ (3 ≤ (45 :: a :: v).length ∧ (45 :: a :: v).take 2 = s.LongSwitch) := by
    rw [hL]
    rintro ⟨h, h'⟩
    apply hlong
    simp at h h' ⊢
    omega
  have h4 : 2 ≤ (45 :: a :: v).length ∧ (45 :: a :: v).take 1 = s.ShortSwitch := by
    rw [hS]
    simp
  simp only [processArg, h2]
  rw [if_neg (by simp), if_neg h3, if_pos h4]
  simp only [List.drop_succ_cons, List.drop_zero, h1]
  rw [if_neg (by simp), rangeToks_ascii _ hascii]

theorem cluster_all_bool (cs : GoString) :
    ∀ (ptrs : List Nat) (s : Scanner),
    List.Forall₂ (fun ch i => findOption s.options [ch] = some i ∧
      isBoolAt s.options i = true) cs ptrs → cs ≠ [] →
    cluster s (cs.map (fun b => [b])) =
      .ok { s with options := setAllTrue s.options ptrs
                   c := s.c ++ ptrs.map (fun i => ⟨i, str "true"⟩)
                   opt := none } := by
  induction cs with
  | nil => intro _ _ _ h; exact absurd rfl h
  | cons ch cs ih =>
    intro ptrs s h _
    cases h with
    | @cons _ i _ ptrs hhd htl =>
      rw [List.map_cons, cluster, switchName_bool _ s [ch] i hhd.1 hhd.2]
      simp only []
      cases cs with
      | nil =>
        cases htl
        simp [cluster, emit, setAllTrue]
      | cons ch2 cs2 =>
        have hrest : List.Forall₂ (fun ch k =>
            findOption (emit s i (str "true")).options [ch] = some k ∧
            isBoolAt (emit s i (str "true")).options k = true) (ch2 :: cs2) ptrs := by
          apply List.Forall₂.imp _ htl
          intro x k hk
          simpa [emit, findOption_setValue, isBoolAt_setValue] using hk
        rw [ih ptrs (emit s i (str "true")) hrest (by simp)]
        simp [emit, setAllTrue]

/-- C4 (as amended). Short-flag clustering. Let `cs` be a non-empty sequence of
single-byte characters whose first and last are not white space and which does not
turn `"-" ++ cs` into a long switch (`cs` is one character or does not begin with `-`);
let every character of `cs` resolve, as a name, to an option with a boolean default,
`ptrs` listing these options in the order of `cs`. Then scanning `[prog, "-" ++ cs]`
ends normally, the channel carries exactly the options `ptrs`, in that order, each with
value `"true"`, and `Remainder` is empty. -/
theorem C4_short_flag_cluster (options : List Option) (cs : GoString) (ptrs : List Nat)
    (prog : GoString)
    (hne : cs ≠ []) (hascii : ∀ b ∈ cs, b < 0x80)
    (hfirst : ∀ a, cs.head? = some a → isSpace a = false)
    (hlast : ∀ z, cs.getLast? = some z → isSpace z = false)
    (hlong : ¬ (2 ≤ cs.length ∧ cs.head? = some 45))
    (hflags : List.Forall₂ (fun ch i => findOption options [ch] = some i ∧
      isBoolAt options i = true) cs ptrs) :
    Parse (initial options) [prog, str "-" ++ cs] =
      .ok { initial (setAllTrue options ptrs) with
            Remainder := []
            c := ptrs.map (fun i => ⟨i, str "true"⟩) } := by
  simp only [Parse, processArgs, List.tail_cons, processTail, str_dash, List.cons_append,
    List.nil_append]
  rw [processArg_cluster _ ⟨rfl, rfl⟩ cs hne hascii hfirst hlast hlong,
    cluster_all_bool cs ptrs _ hflags hne]
  simp [initial]

/-- Instance of C4: `-abc` with the boolean flags `a`, `b`, `c` of `regFlags` sends
`a`, `b`, `c` in this order. -/
theorem C4_short_flag_cluster_witness :
    Parse (initial regFlags) [str "prog", str "-" ++ str "abc"] =
      .ok { initial (setAllTrue regFlags [0, 1, 2]) with
            Remainder := []
            c := [⟨0, str "true"⟩, ⟨1, str "true"⟩, ⟨2, str "true"⟩] } :=
  C4_short_flag_cluster regFlags (str "abc") [0, 1, 2] (str "prog") (by decide) (by decide)
    (by decide) (by decide) (by decide)
    (.cons (by decide) (.cons (by decide) (.cons (by decide) .nil)))

/-- C4 as stated fails: in `regFlags` both `a` and the blank are short names of boolean
options and first matches, but the cluster made of `a` and a blank sends one option,
not two: the token is trimmed before it is split into characters. -/
theorem C4_counterexample :
    (findOption regFlags (str "a") = some 0 ∧ isBoolAt regFlags 0 = true) ∧
    (findOption regFlags (str " ") = some 3 ∧ isBoolAt regFlags 3 = true) ∧
    Parse (initial regFlags) [str "prog", str "-" ++ (str "a" ++ str " ")] =
      .ok { initial (setAllTrue regFlags [0]) with
            Remainder := []
            c := [⟨0, str "true"⟩] } := by
  decide

theorem decode2_append (c0 : Nat) (r x : GoString)
    (hw : (decode2 c0 (r ++ x)).2 ≤ r.length + 1) : decode2 c0 r = decode2 c0 (r ++ x) := by
  rcases r with _ | ⟨c1, r⟩
  · rcases x with _ | ⟨x0, x⟩
    · rfl
    · simp only [decode2, List.nil_append, List.length_nil] at hw ⊢
      split_ifs at hw ⊢
      · simp at hw
      · rfl
  · rfl

theorem decode3_append (c0 : Nat) (r x : GoString)
    (hw : (decode3 c0 (r ++ x)).2 ≤ r.length + 1) : decode3 c0 r = decode3 c0 (r ++ x) := by
  rcases r with _ | ⟨c1, _ | ⟨c2, r⟩⟩
  · rcases x with _ | ⟨x0, _ | ⟨x1, x⟩⟩
    · rfl
    · rfl
    · simp only [decode3, List.nil_append, List.length_nil] at hw ⊢
      split_ifs at hw ⊢
      · simp at hw
      · rfl
  · rcases x with _ | ⟨x0, x⟩
    · rfl
    · simp only [decode3, List.cons_append, List.nil_append, List.length_cons,
        List.length_nil] at hw ⊢
      split_ifs at hw ⊢
      · simp at hw
      · rfl
  · rfl

theorem decode4_append (c0 : Nat) (r x : GoString)
    (hw : (decode4 c0 (r ++ x)).2 ≤ r.length + 1) : decode4 c0 r = decode4 c0 (r ++ x) := by
  rcases r with _ | ⟨c1, _ | ⟨c2, _ | ⟨c3, r⟩⟩⟩
  · rcases x with _ | ⟨x0, _ | ⟨x1, _ | ⟨x2, x⟩⟩⟩
    · rfl
    · rfl
    · rfl
    · simp only [decode4, List.nil_append, List.length_nil] at hw ⊢
      split_ifs at hw ⊢
      · simp at hw
      · rfl
  · rcases x with _ | ⟨x0, _ | ⟨x1, x⟩⟩
    · rfl
    · rfl
    · simp only [decode4, List.cons_append, List.nil_append, List.length_cons,
        List.length_nil] at hw ⊢
      split_ifs at hw ⊢
      · simp at hw
      · rfl
  · rcases x with _ | ⟨x0, x⟩
    · rfl
    · simp only [decode4, List.cons_append, List.nil_append, List.length_cons,
        List.length_nil] at hw ⊢
      split_ifs at hw ⊢
      · simp at hw
      · rfl
  · rfl

theorem decodeRune_append (u x : GoString) (hu : u ≠ [])
    (hw : (decodeRune (u ++ x)).2 ≤ u.length) : decodeRune u = decodeRune (u ++ x) := by
  obtain ⟨c0, r, rfl⟩ := List.exists_cons_of_ne_nil hu
  simp only [decodeRune, List.cons_append, List.length_cons] at hw ⊢
  split_ifs at hw ⊢
  · rfl
  · rfl
  · exact decode2_append c0 r x hw
  · exact decode3_append c0 r x hw
  · exact decode4_append c0 r x hw
  · rfl

theorem decodeRune_width_le (s : GoString) : (decodeRune s).2 ≤ s.length := by
  rcases s with _ | ⟨c0, _ | ⟨c1, _ | ⟨c2, _ | ⟨c3, rest⟩⟩⟩⟩ <;>
    simp only [decodeRune, decode2, decode3, decode4] <;> (try split_ifs) <;> simp

theorem runesAux_fuel (f : Nat) : ∀ s : GoString, s.length ≤ f →
    runesAux f s = runesAux s.length s := by
  induction f using Nat.strong_induction_on with
  | _ f ih =>
    intro s h
    cases s with
    | nil => cases f <;> rfl
    | cons c0 rest =>
      cases f with
      | zero => simp at h
      | succ f =>
        have hw := decodeRune_width_pos c0 rest
        have hlen : ((c0 :: rest).drop (decodeRune (c0 :: rest)).2).length ≤ rest.length := by
          simp only [List.length_drop, List.length_cons]
          omega
        simp only [List.length_cons] at h
        rw [List.length_cons, runesAux, runesAux,
          ih f (by omega) _ (by omega), ih rest.length (by omega) _ hlen]

theorem runes_cons (c0 : Nat) (rest : GoString) :
    runes (c0 :: rest) = (c0 :: rest).take (decodeRune (c0 :: rest)).2 ::
      runes ((c0 :: rest).drop (decodeRune (c0 :: rest)).2) := by
  have hw := decodeRune_width_pos c0 rest
  rw [runes, List.length_cons, runesAux, runes]
  congr 1
  apply runesAux_fuel
  simp only [List.length_drop, List.length_cons]
  omega

theorem runes_of_suffix (A : List GoString) : ∀ (t : GoString) (X : List GoString),
    runes t = A ++ X → runes X.flatten = X := by
  induction A with
  | nil =>
    intro t X h
    rw [List.nil_append] at h
    rw [← h, runes_flatten]
  | cons g A ih =>
    intro t X h
    cases t with
    | nil => simp [runes, runesAux] at h
    | cons c0 rest =>
      rw [runes_cons, List.cons_append] at h
      exact ih _ X (List.cons.inj h).2

theorem runes_of_prefix (M : List GoString) : ∀ (t : GoString) (B : List GoString),
    runes t = M ++ B → runes M.flatten = M := by
  induction M with
  | nil => intro _ _ _; rfl
  | cons g M ih =>
    intro t B h
    cases t with
    | nil => simp [runes, runesAux] at h
    | cons c0 rest =>
      have hw := decodeRune_width_pos c0 rest
      have hwl := decodeRune_width_le (c0 :: rest)
      rw [runes_cons, List.cons_append] at h
      obtain ⟨hg, htl⟩ := List.cons.inj h
      have hM := ih _ B htl
      have hglen : g.length = (decodeRune (c0 :: rest)).2 := by
        rw [← hg, List.length_take]
        omega
      have ht : c0 :: rest = (g ++ M.flatten) ++ B.flatten := by
        have h1 := runes_flatten ((c0 :: rest).drop (decodeRune (c0 :: rest)).2)
        rw [htl, List.flatten_append] at h1
        rw [List.append_assoc, h1, ← hg, List.take_append_drop]
      have hgne : g ≠ [] := by
        intro h0
        rw [h0] at hglen
        simp at hglen
        omega
      have hune : g ++ M.flatten ≠ [] := by simp [hgne]
      have hdec : decodeRune (g ++ M.flatten) = decodeRune (c0 :: rest) := by
        rw [ht]
        apply decodeRune_append _ _ hune
        rw [← ht, List.length_append]
        omega
      obtain ⟨u0, us, hu⟩ := List.exists_cons_of_ne_nil hune
      rw [List.flatten_cons, hu, runes_cons, ← hu, hdec, ← hglen, List.take_left',
        List.drop_left', hM] <;> rfl

theorem runes_TrimSpace (t : GoString) :
    runes (TrimSpace t) = ((runes t).dropWhile spaceRune).rdropWhile spaceRune := by
  obtain ⟨B, hB⟩ : ∃ B, ((runes t).dropWhile spaceRune).rdropWhile spaceRune ++ B
      = (runes t).dropWhile spaceRune := List.rdropWhile_prefix _ _
  have hD : runes ((runes t).dropWhile spaceRune).flatten = (runes t).dropWhile spaceRune :=
    runes_of_suffix ((runes t).takeWhile spaceRune) t _
      (List.takeWhile_append_dropWhile spaceRune (runes t)).symm
  exact runes_of_prefix _ _ B (hD.trans hB.symm)

theorem dropWhile_rdropWhile_self {α : Type} (p : α → Bool) (R : List α) :
    ((R.dropWhile p).rdropWhile p).dropWhile p = (R.dropWhile p).rdropWhile p := by
  obtain ⟨B, hB⟩ : ∃ B, (R.dropWhile p).rdropWhile p ++ B = R.dropWhile p :=
    List.rdropWhile_prefix _ _
  cases hM : (R.dropWhile p).rdropWhile p with
  | nil => rfl
  | cons a M =>
    rw [hM] at hB
    have hhead : (List.dropWhile p R).head? = some a := by rw [← hB]; rfl
    have := List.head?_dropWhile_not p R
    rw [hhead] at this
    simp only [List.dropWhile_cons]
    simp at this
    simp [this]

theorem runes_TrimSpace_trimmed (t : GoString) :
    (runes (TrimSpace t)).dropWhile spaceRune = runes (TrimSpace t) ∧
    (runes (TrimSpace t)).rdropWhile spaceRune = runes (TrimSpace t) := by
  rw [runes_TrimSpace]
  exact ⟨dropWhile_rdropWhile_self _ _, List.rdropWhile_idempotent _ _⟩

theorem TrimSpace_idem (t : GoString) : TrimSpace (TrimSpace t) = TrimSpace t :=
  TrimSpace_keep _ (runes_TrimSpace_trimmed t).1 (runes_TrimSpace_trimmed t).2

theorem TrimSpace_eq_nil_iff (w : GoString) :
    TrimSpace w = [] ↔ ∀ g ∈ runes w, spaceRune g = true := by
  have hne : ∀ g ∈ runes w, g ≠ [] := runesAux_ne_nil _ _
  rw [TrimSpace, List.flatten_eq_nil_iff]
  constructor
  · intro h
    have h0 : ((runes w).dropWhile spaceRune).rdropWhile spaceRune = [] := by
      apply List.eq_nil_iff_forall_not_mem.2
      intro g hg
      have h1 : g ∈ (runes w).dropWhile spaceRune :=
        (List.rdropWhile_prefix _ _).subset hg
      exact hne g ((List.dropWhile_suffix _).subset h1) (h g hg)
    rw [List.rdropWhile_eq_nil_iff] at h0
    have h1 : (runes w).dropWhile spaceRune = [] := by
      by_contra hcon
      obtain ⟨a, D, hD⟩ := List.exists_cons_of_ne_nil hcon
      have h2 := List.head?_dropWhile_not spaceRune (runes w)
      rw [hD] at h2 h0
      have := h0 a (List.mem_cons_self _ _)
      simp [this] at h2
    rw [List.dropWhile_eq_nil_iff] at h1
    exact h1
  · intro h g hg
    have h1 : (runes w).dropWhile spaceRune = [] := List.dropWhile_eq_nil_iff.2 h
    rw [h1] at hg
    simp at hg

theorem TrimSpace_eq_nil_of_no_trailing (w : GoString)
    (hw : (runes w).rdropWhile spaceRune = runes w) (h : TrimSpace w = []) : w = [] := by
  rw [TrimSpace_eq_nil_iff, ← List.rdropWhile_eq_nil_iff, hw, runes_eq_nil_iff] at h
  exact h

theorem rdropWhile_of_cons {α : Type} (p : α → Bool) (a : α) (R : List α)
    (h : (a :: R).rdropWhile p = a :: R) (hR : R ≠ []) : R.rdropWhile p = R := by
  rw [List.rdropWhile_eq_self_iff] at h ⊢
  intro hl
  have := h (by simp)
  rwa [List.getLast_cons hR] at this

theorem TrimSpace_drop_ne_nil (t : GoString) (a : Nat) (w : GoString) (ha : a < 0x80)
    (hv : TrimSpace t = a :: w) (hw : w ≠ []) :
    TrimSpace w ≠ [] ∧ (runes w).rdropWhile spaceRune = runes w := by
  have h := (runes_TrimSpace_trimmed t).2
  rw [hv, runes_cons_ascii a w ha] at h
  have h2 := rdropWhile_of_cons _ _ _ h (fun h0 => hw ((runes_eq_nil_iff w).1 h0))
  exact ⟨fun h0 => hw (TrimSpace_eq_nil_of_no_trailing w h2 h0), h2⟩

theorem no_trailing_tail (a : Nat) (w : GoString) (ha : a < 0x80)
    (h : (runes (a :: w)).rdropWhile spaceRune = runes (a :: w)) (hw : w ≠ []) :
    (runes w).rdropWhile spaceRune = runes w := by
  rw [runes_cons_ascii a w ha] at h
  exact rdropWhile_of_cons _ _ _ h (fun h0 => hw ((runes_eq_nil_iff w).1 h0))

theorem processArg_empty (s : Scanner) (t : GoString) (h : TrimSpace t = []) :
    processArg s t = .ok s := by
  simp [processArg, h]

theorem processArg_long_form (s : Scanner) (hd : DefaultSwitches s) (t : GoString)
    (h : LongForm (TrimSpace t)) :
    processArg s t = switchName (str "--") s (TrimSpace ((TrimSpace t).drop 2)) := by
  obtain ⟨hS, hL⟩ := hd
  have htr := (runes_TrimSpace_trimmed t).2
  obtain ⟨h3, h2⟩ := h
  have hlong : 3 ≤ (TrimSpace t).length ∧ (TrimSpace t).take 2 = s.LongSwitch := by
    rw [hL]; exact ⟨h3, h2⟩
  rcases hv : TrimSpace t with _ | ⟨a, _ | ⟨b, w⟩⟩
  · rw [hv] at h3; simp at h3
  · rw [hv] at h3; simp at h3
  · rw [hv] at h3 h2 htr
    obtain ⟨rfl, rfl⟩ : a = 45 ∧ b = 45 := by simpa using h2
    have hw : w ≠ [] := by
      rintro rfl
      simp at h3
    have h1 := no_trailing_tail 45 (45 :: w) (by decide) htr (by simp)
    have h4 := no_trailing_tail 45 w (by decide) h1 hw
    have hne : ¬ (TrimSpace w).length = 0 := by
      rw [List.length_eq_zero]
      exact fun h0 => hw (TrimSpace_eq_nil_of_no_trailing w h4 h0)
    rw [hv] at hlong
    simp only [processArg, hv]
    rw [if_neg (by simp), if_pos hlong]
    simp only [List.drop_succ_cons, List.drop_zero]
    rw [if_neg hne]

theorem processArg_short_form (s : Scanner) (hd : DefaultSwitches s) (t : GoString)
    (hl : ¬ LongForm (TrimSpace t)) (h : ShortForm (TrimSpace t)) :
    processArg s t = cluster s (rangeToks 0 (TrimSpace ((TrimSpace t).drop 1))) := by
  obtain ⟨hS, hL⟩ := hd
  have htr := (runes_TrimSpace_trimmed t).2
  obtain ⟨h2, h1⟩ := h
  have hnl : ¬ (3 ≤ (TrimSpace t).length ∧ (TrimSpace t).take 2 = s.LongSwitch) := by
    rw [hL]; exact hl
  have hshort : 2 ≤ (TrimSpace t).length ∧ (TrimSpace t).take 1 = s.ShortSwitch := by
    rw [hS]; exact ⟨h2, h1⟩
  rcases hv : TrimSpace t with _ | ⟨a, w⟩
  · rw [hv] at h2; simp at h2
  · rw [hv] at h2 h1 htr hnl hshort
    obtain rfl : a = 45 := by simpa using h1
    have hw : w ≠ [] := by
      rintro rfl
      simp at h2
    have h4 := no_trailing_tail 45 w (by decide) htr hw
    have hne : ¬ (TrimSpace w).length = 0 := by
      rw [List.length_eq_zero]
      exact fun h0 => hw (TrimSpace_eq_nil_of_no_trailing w h4 h0)
    simp only [processArg, hv]
    rw [if_neg (by simp), if_neg hnl, if_pos hshort]
    simp only [List.drop_succ_cons, List.drop_zero]
    rw [if_neg hne]

theorem processArg_plain_form (s : Scanner) (hd : DefaultSwitches s) (t : GoString)
    (hne : TrimSpace t ≠ []) (hl : ¬ LongForm (TrimSpace t))
    (hs : ¬ ShortForm (TrimSpace t)) :
    processArg s t = match s.opt with
      | none => .ok { s with Remainder := s.Remainder ++ [TrimSpace t] }
      | some i => .ok (emit s i (TrimSpace t)) := by
  obtain ⟨hS, hL⟩ := hd
  have h1 : ¬ (TrimSpace t).length = 0 := by rwa [List.length_eq_zero]
  have h2 : ¬ (3 ≤ (TrimSpace t).length ∧ (TrimSpace t).take 2 = s.LongSwitch) := by
    rw [hL]; exact hl
  have h3 : ¬ (2 ≤ (TrimSpace t).length ∧ (TrimSpace t).take 1 = s.ShortSwitch) := by
    rw [hS]; exact hs
  simp only [processArg]
  rw [if_neg h1, if_neg h2, if_neg h3]

/-- The statements `Remainder = append(Remainder, LongSwitch)` (line 132) and
`Remainder = append(Remainder, ShortSwitch)` (line 151) are never reached: whatever the
state and the token, one step of the loop is the skip of an empty token, a lookup of the
text after `--`, a cluster walk over the text after `-`, or the plain-token branch. -/
theorem processArg_cases (s : Scanner) (hd : DefaultSwitches s) (t : GoString) :
    processArg s t =
      if TrimSpace t = [] then .ok s
      else if LongForm (TrimSpace t) then
        switchName (str "--") s (TrimSpace ((TrimSpace t).drop 2))
      else if ShortForm (TrimSpace t) then
        cluster s (rangeToks 0 (TrimSpace ((TrimSpace t).drop 1)))
      else match s.opt with
        | none => .ok { s with Remainder := s.Remainder ++ [TrimSpace t] }
        | some i => .ok (emit s i (TrimSpace t)) := by
  split_ifs with h1 h2 h3
  · exact processArg_empty s t h1
  · exact processArg_long_form s hd t h2
  · exact processArg_short_form s hd t h2 h3
  · exact processArg_plain_form s hd t h1 h2 h3

/-- C5 (the code at the failing input). On the registry `regNameX`, where nothing is
called `-`: the token `--` is not appended to `Remainder`; having length 2 it fails the
test of line 129, is taken as a short cluster, its second character `-` is looked up
and the scan ends in the unknown-option exit. A token `-` after the value-taking switch
`--name` is sent as the value of `name`. Only `-` with nothing pending reaches
`Remainder`. -/
theorem C5_bare_prefix_tokens :
    Parse (initial regNameX) [str "prog", str "--"] =
      .exit (initial regNameX) (str "Unknown option '--' specified.\n") ∧
    Parse (initial regNameX) [str "prog", str "--name", str "-"] =
      .ok { initial (setValue regNameX 0 (str "-")) with c := [⟨0, str "-"⟩] } ∧
    Parse (initial regNameX) [str "prog", str "-"] =
      .ok { initial regNameX with Remainder := [str "-"] } := by
  decide

/-- For every registry with no entry called `-`, the argument `--` ends the scan in the
unknown-option exit. -/
theorem bare_long_prefix_exits (options : List Option) (prog : GoString)
    (h : findOption options (str "-") = none) :
    Parse (initial options) [prog, str "--"] =
      .exit (initial options) (str "Unknown option '--' specified.\n") := by
  have e : processArg { initial options with Remainder := [], c := [], opt := none }
      (str "--") = cluster _ [str "-"] :=
    processArg_short _ ⟨rfl, rfl⟩ (str "-") (by decide) (by decide) (by decide)
  simp only [Parse, processArgs, List.tail_cons, processTail]
  rw [e]
  simp only [cluster]
  rw [switchName_unknown _ _ _ (by simpa [initial] using h)]
  simp only [initial]
  congr 1

/-- C6 (the code at the failing input). `findOption` has no test for header entries:
in the registry made by `Header("General")` alone the token `__hdr` resolves to the
header entry, so scanning `[prog, "--__hdr", "x"]` puts the header entry into the
pending slot, stores `"x"` in it and sends it on the channel. -/
theorem C6_header_entry_matches :
    regHeader[0]?.map (fun o => o.ShortName) = some headerName ∧
    findOption regHeader (str "__hdr") = some 0 ∧
    Parse (initial regHeader) [str "prog", str "--__hdr"] =
      .ok { initial regHeader with opt := some 0 } ∧
    Parse (initial regHeader) [str "prog", str "--__hdr", str "x"] =
      .ok { initial (setValue regHeader 0 (str "x")) with c := [⟨0, str "x"⟩] } := by
  decide

theorem decls_setValue (options : List Option) (i : Nat) (v : GoString) :
    decls (setValue options i v) = decls options := by
  induction options generalizing i with
  | nil => rfl
  | cons o rest ih =>
    cases i with
    | zero => simp [setValue, decls]
    | succ i =>
      have := ih i
      simp only [decls] at this
      simp [setValue, decls, this]

theorem findOption_decls (options : List Option) (name : GoString) :
    findOption (decls options) name = findOption options name := by
  induction options with
  | nil => rfl
  | cons o rest ih =>
    have : decls (o :: rest) = { o with value := [] } :: decls rest := rfl
    rw [this, findOption, findOption, ih]

theorem isBoolAt_decls (options : List Option) (i : Nat) :
    isBoolAt (decls options) i = isBoolAt options i := by
  simp only [isBoolAt, decls, List.getElem?_map]
  cases options[i]? <;> rfl

theorem findOption_congr {a b : List Option} (h : decls a = decls b) (name : GoString) :
    findOption a name = findOption b name := by
  rw [← findOption_decls a, h, findOption_decls]

theorem isBoolAt_congr {a b : List Option} (h : decls a = decls b) (i : Nat) :
    isBoolAt a i = isBoolAt b i := by
  rw [← isBoolAt_decls a, h, isBoolAt_decls]

theorem SameDecls_refl (s : Scanner) : SameDecls s s := ⟨rfl, rfl, rfl⟩

theorem SameDecls_trans {a b c : Scanner} (h1 : SameDecls a b) (h2 : SameDecls b c) :
    SameDecls a c :=
  ⟨h2.1.trans h1.1, h2.2.1.trans h1.2.1, h2.2.2.trans h1.2.2⟩

theorem SameDecls_default {s s' : Scanner} (h : SameDecls s s') (hd : DefaultSwitches s) :
    DefaultSwitches s' :=
  ⟨h.2.1.trans hd.1, h.2.2.trans hd.2⟩

theorem emit_same (s : Scanner) (i : Nat) (v : GoString) : SameDecls s (emit s i v) :=
  ⟨decls_setValue _ _ _, rfl, rfl⟩

theorem switchName_same (d : GoString) (s : Scanner) (name : GoString) :
    SameDecls s (switchName d s name).state ∧
    (switchName d s name).state.Remainder = s.Remainder := by
  unfold switchName
  cases findOption s.options name with
  | none => exact ⟨⟨rfl, rfl, rfl⟩, rfl⟩
  | some i =>
    by_cases hb : isBoolAt s.options i = true
    · simp only [hb, if_true, Outcome.state]
      exact ⟨emit_same _ _ _, rfl⟩
    · simp only [hb, Outcome.state]
      exact ⟨⟨rfl, rfl, rfl⟩, rfl⟩

theorem switchName_failed (d : GoString) (s : Scanner) (name : GoString) :
    (switchName d s name).failed = true ↔ findOption s.options name = none := by
  unfold switchName
  cases findOption s.options name with
  | none => simp [Outcome.failed]
  | some i =>
    by_cases hb : isBoolAt s.options i = true <;> simp [hb, Outcome.failed]

theorem switchName_exit (d : GoString) (s : Scanner) (name : GoString) (s2 : Scanner)
    (dg : GoString) (h : switchName d s name = .exit s2 dg) :
    findOption s.options name = none ∧ s2 = { s with opt := none } := by
  unfold switchName at h
  cases hf : findOption s.options name with
  | none =>
    rw [hf] at h
    simp only [Outcome.exit.injEq] at h
    exact ⟨rfl, h.1.symm⟩
  | some i =>
    rw [hf] at h
    by_cases hb : isBoolAt s.options i = true <;> simp [hb] at h

theorem cluster_same (toks : List GoString) : ∀ s : Scanner,
    SameDecls s (cluster s toks).state ∧ (cluster s toks).state.Remainder = s.Remainder := by
  induction toks with
  | nil => intro s; exact ⟨SameDecls_refl s, rfl⟩
  | cons tok toks ih =>
    intro s
    have h := switchName_same (str "-") s tok
    rw [cluster]
    cases hsw : switchName (str "-") s tok with
    | ok s1 =>
      rw [hsw] at h
      exact ⟨SameDecls_trans h.1 (ih s1).1, (ih s1).2.trans h.2⟩
    | exit s1 d =>
      rw [hsw] at h
      exact h

theorem cluster_failed (toks : List GoString) : ∀ s : Scanner,
    (cluster s toks).failed = true ↔ ∃ ch ∈ toks, findOption s.options ch = none := by
  induction toks with
  | nil => intro s; simp [cluster, Outcome.failed]
  | cons tok toks ih =>
    intro s
    have h := switchName_same (str "-") s tok
    have hf := switchName_failed (str "-") s tok
    rw [cluster]
    cases hsw : switchName (str "-") s tok with
    | ok s1 =>
      rw [hsw] at h hf
      have hne : findOption s.options tok ≠ none := fun h0 => by
        have := hf.2 h0
        simp [Outcome.failed] at this
      simp only [ih s1, List.mem_cons, exists_eq_or_imp, hne, false_or]
      constructor
      · rintro ⟨ch, hm, hch⟩
        exact ⟨ch, hm, (findOption_congr h.1.1 ch).symm.trans hch⟩
      · rintro ⟨ch, hm, hch⟩
        exact ⟨ch, hm, (findOption_congr h.1.1 ch).trans hch⟩
    | exit s1 d =>
      rw [hsw] at hf
      have : findOption s.options tok = none := hf.1 rfl
      simp [Outcome.failed, this]

theorem cluster_exit (toks : List GoString) : ∀ (s s2 : Scanner) (d : GoString),
    cluster s toks = .exit s2 d →
    ∃ s', cluster s (toks.takeWhile (fun ch => (findOption s.options ch).isSome)) = .ok s' ∧
      s2 = { s' with opt := none } := by
  induction toks with
  | nil => intro s s2 d h; simp [cluster] at h
  | cons tok toks ih =>
    intro s s2 d h
    have hsame := switchName_same (str "-") s tok
    have hf := switchName_failed (str "-") s tok
    rw [cluster] at h
    cases hsw : switchName (str "-") s tok with
    | ok s1 =>
      rw [hsw] at h hsame hf
      have hsome : (findOption s.options tok).isSome = true := by
        cases hfo : findOption s.options tok with
        | none =>
          have := hf.2 hfo
          simp [Outcome.failed] at this
        | some i => rfl
      obtain ⟨s', h1, h2⟩ := ih s1 s2 d h
      refine ⟨s', ?_, h2⟩
      rw [List.takeWhile_cons, hsome]
      simp only [if_true, cluster, hsw]
      have hfun : (fun ch => (findOption s.options ch).isSome) =
          (fun ch => (findOption s1.options ch).isSome) := by
        funext ch
        have := findOption_congr hsame.1.1 ch
        simp only [Outcome.state] at this
        rw [this]
      rw [hfun]
      exact h1
    | exit s1 d1 =>
      rw [hsw] at h
      obtain ⟨hnone, hs⟩ := switchName_exit _ _ _ _ _ hsw
      simp only [Outcome.exit.injEq] at h
      refine ⟨s, ?_, ?_⟩
      · rw [List.takeWhile_cons, hnone]
        simp [cluster]
      · rw [← h.1, hs]

theorem Unresolved_congr {a b : List Option} (h : decls a = decls b) (t : GoString) :
    Unresolved a t ↔ Unresolved b t := by
  simp only [Unresolved, findOption_congr h]

theorem processArg_same (s : Scanner) (hd : DefaultSwitches s) (t : GoString) :
    SameDecls s (processArg s t).state := by
  rw [processArg_cases s hd t]
  split_ifs
  · exact SameDecls_refl s
  · exact (switchName_same _ _ _).1
  · exact (cluster_same _ _).1
  · cases s.opt with
    | none => exact ⟨rfl, rfl, rfl⟩
    | some i => exact emit_same _ _ _

theorem processArg_failed (s : Scanner) (hd : DefaultSwitches s) (t : GoString) :
    (processArg s t).failed = true ↔ Unresolved s.options t := by
  rw [processArg_cases s hd t, Unresolved]
  split_ifs with h1 h2 h3
  · have hl : ¬ LongForm (TrimSpace t) := by rw [h1]; decide
    have hs : ¬ ShortForm (TrimSpace t) := by rw [h1]; decide
    simp [Outcome.failed, hl, hs]
  · simp [switchName_failed, h2]
  · simp [cluster_failed, h2, h3]
  · cases s.opt <;> simp [Outcome.failed, h2, h3]

theorem processArg_exit (s : Scanner) (hd : DefaultSwitches s) (t : GoString)
    (s2 : Scanner) (d : GoString) (h : processArg s t = .exit s2 d) :
    s2.Remainder = s.Remainder ∧
    (LongForm (TrimSpace t) → s2.c = s.c ∧ s2.options = s.options) ∧
    (¬ LongForm (TrimSpace t) → ∃ s',
      cluster s ((rangeToks 0 (TrimSpace ((TrimSpace t).drop 1))).takeWhile
        (fun ch => (findOption s.options ch).isSome)) = .ok s' ∧
      s2.c = s'.c ∧ s2.options = s'.options) := by
  rw [processArg_cases s hd t] at h
  by_cases h1 : TrimSpace t = []
  · rw [if_pos h1] at h
    cases h
  rw [if_neg h1] at h
  by_cases h2 : LongForm (TrimSpace t)
  · rw [if_pos h2] at h
    obtain ⟨-, rfl⟩ := switchName_exit _ _ _ _ _ h
    exact ⟨rfl, fun _ => ⟨rfl, rfl⟩, fun hn => absurd h2 hn⟩
  rw [if_neg h2] at h
  by_cases h3 : ShortForm (TrimSpace t)
  · rw [if_pos h3] at h
    obtain ⟨s', hs', rfl⟩ := cluster_exit _ _ _ _ h
    have hr := (cluster_same (rangeToks 0 (TrimSpace ((TrimSpace t).drop 1))) s).2
    rw [h] at hr
    exact ⟨hr, fun hl => absurd hl h2, fun _ => ⟨s', hs', rfl, rfl⟩⟩
  rw [if_neg h3] at h
  cases hopt : s.opt <;> rw [hopt] at h <;> cases h

theorem processTail_append (A B : List GoString) : ∀ s : Scanner,
    processTail s (A ++ B) = match processTail s A with
      | .ok s1 => processTail s1 B
      | .exit s1 d => .exit s1 d := by
  induction A with
  | nil => intro s; rfl
  | cons a A ih =>
    intro s
    rw [List.cons_append, processTail, processTail]
    cases processArg s a with
    | ok s1 => exact ih s1
    | exit s1 d => rfl

theorem processTail_same (toks : List GoString) : ∀ s : Scanner, DefaultSwitches s →
    SameDecls s (processTail s toks).state := by
  induction toks with
  | nil => intro s _; exact SameDecls_refl s
  | cons t toks ih =>
    intro s hd
    have h := processArg_same s hd t
    rw [processTail]
    cases hp : processArg s t with
    | ok s1 =>
      rw [hp] at h
      exact SameDecls_trans h (ih s1 (SameDecls_default h hd))
    | exit s1 d =>
      rw [hp] at h
      exact h

theorem processTail_failed (toks : List GoString) : ∀ s : Scanner, DefaultSwitches s →
    ((processTail s toks).failed = true ↔ ∃ tok ∈ toks, Unresolved s.options tok) := by
  induction toks with
  | nil => intro s _; simp [processTail, Outcome.failed]
  | cons t toks ih =>
    intro s hd
    have h := processArg_same s hd t
    have hf := processArg_failed s hd t
    rw [processTail]
    cases hp : processArg s t with
    | ok s1 =>
      rw [hp] at h hf
      have hne : ¬ Unresolved s.options t := fun h0 => by
        have := hf.2 h0
        simp [Outcome.failed] at this
      simp only [ih s1 (SameDecls_default h hd), List.mem_cons, exists_eq_or_imp, hne, false_or]
      constructor
      · rintro ⟨tok, hm, ht⟩
        exact ⟨tok, hm, (Unresolved_congr h.1 tok).1 ht⟩
      · rintro ⟨tok, hm, ht⟩
        exact ⟨tok, hm, (Unresolved_congr h.1 tok).2 ht⟩
    | exit s1 d =>
      rw [hp] at hf
      have : Unresolved s.options t := hf.1 rfl
      simp [Outcome.failed, this]

/-- C7 (as amended). The unknown-option exit. The scan of `prog :: toks` ends in the
exit if and only if some token is `Unresolved`: trimmed, it has long-switch form and
its rest, trimmed again, resolves to nothing, or it has short-switch form only and
the first byte of some rune of its trimmed rest resolves to nothing. At the first such
token the scan stops: the tokens after it have no effect, the token itself adds nothing
to `Remainder`; a long switch sends nothing, and a cluster sends exactly what its
characters before the first unknown one send. -/
theorem C7_unknown_option_exit (options : List Option) (prog : GoString)
    (toks : List GoString) :
    ((Parse (initial options) (prog :: toks)).failed = true ↔
      ∃ tok ∈ toks, Unresolved options tok) ∧
    (∀ pre tok post, toks = pre ++ tok :: post →
      (∀ t ∈ pre, ¬ Unresolved options t) → Unresolved options tok →
      ∃ s1 s2 d, Parse (initial options) (prog :: pre) = .ok s1 ∧
        Parse (initial options) (prog :: toks) = .exit s2 d ∧
        s2.Remainder = s1.Remainder ∧
        (LongForm (TrimSpace tok) → s2.c = s1.c ∧ s2.options = s1.options) ∧
        (¬ LongForm (TrimSpace tok) → ∃ s',
          cluster s1 ((rangeToks 0 (TrimSpace ((TrimSpace tok).drop 1))).takeWhile
            (fun ch => (findOption options ch).isSome)) = .ok s' ∧
          s2.c = s'.c ∧ s2.options = s'.options)) := by
  have hd : DefaultSwitches { initial options with Remainder := [], c := [], opt := none } :=
    ⟨rfl, rfl⟩
  constructor
  · simp only [Parse, processArgs, List.tail_cons]
    exact processTail_failed toks _ hd
  · rintro pre tok post rfl hpre htok
    simp only [Parse, processArgs, List.tail_cons]
    have hsame := processTail_same pre _ hd
    have hnf : ¬ (processTail { initial options with Remainder := [], c := [], opt := none }
        pre).failed = true := by
      rw [processTail_failed pre _ hd]
      rintro ⟨t, ht, hu⟩
      exact hpre t ht hu
    rw [processTail_append]
    cases hp : processTail { initial options with Remainder := [], c := [], opt := none }
        pre with
    | exit s1 d => rw [hp] at hnf; exact absurd rfl hnf
    | ok s1 =>
      rw [hp] at hsame
      have hd1 : DefaultSwitches s1 := SameDecls_default hsame hd
      have hdecl : decls s1.options = decls options := hsame.1
      have hf := (processArg_failed s1 hd1 tok).2 ((Unresolved_congr hdecl tok).2 htok)
      simp only [processTail]
      cases hq : processArg s1 tok with
      | ok s2 => rw [hq] at hf; simp [Outcome.failed] at hf
      | exit s2 d =>
        obtain ⟨h1, h2, h3⟩ := processArg_exit s1 hd1 tok s2 d hq
        refine ⟨s1, s2, d, rfl, rfl, h1, h2, ?_⟩
        intro hl
        have hfun : (fun ch => (findOption options ch).isSome) =
            (fun ch => (findOption s1.options ch).isSome) := by
          funext ch
          rw [findOption_congr hdecl ch]
        rw [hfun]
        exact h3 hl

/-- Instance of C7: an input containing `--bogus`, with no option of that name, fails. -/
theorem C7_unknown_option_exit_witness :
    (Parse (initial regNameX)
      [str "prog", str "--name", str "Alice", str "--bogus", str "x"]).failed = true :=
  (C7_unknown_option_exit regNameX (str "prog")
    [str "--name", str "Alice", str "--bogus", str "x"]).1.2 (by decide)

/-- C7 as stated fails in two places. The token `-aZ`, on the flags of `regFlags`, is
the first token with an unknown character, and it does produce an emission: `a` is sent
before `Z` is looked up. The token `-- name`, on `regNameX`, has long-switch form and
its rest `" name"` is no declared name, yet the scan does not fail: the rest is trimmed
before the lookup and resolves to `name`. -/
theorem C7_counterexample :
    Parse (initial regFlags) [str "prog", str "-aZ"] =
      .exit { initial (setValue regFlags 0 (str "true")) with c := [⟨0, str "true"⟩] }
        (str "Unknown option '-Z' specified.\n") ∧
    (3 ≤ (TrimSpace (str "-- name")).length ∧
      (TrimSpace (str "-- name")).take 2 = str "--" ∧
      findOption regNameX ((TrimSpace (str "-- name")).drop 2) = none ∧
      Parse (initial regNameX) [str "prog", str "-- name"] =
        .ok { initial regNameX with opt := some 0 }) := by
  decide

theorem setValue_getElem_ne (options : List Option) (i k : Nat) (v : GoString)
    (h : k ≠ i) : (setValue options i v)[k]? = options[k]? := by
  induction options generalizing i k with
  | nil => rfl
  | cons o rest ih =>
    cases i with
    | zero =>
      cases k with
      | zero => exact absurd rfl h
      | succ k => simp [setValue]
    | succ i =>
      cases k with
      | zero => simp [setValue]
      | succ k =>
        simp only [setValue, List.getElem?_cons_succ]
        exact ih i k (by omega)

theorem BoolOnly_refl (s : Scanner) : BoolOnly s s :=
  ⟨SameDecls_refl s, rfl, ⟨[], by simp, by simp⟩, fun _ _ => rfl⟩

theorem BoolOnly_trans {a b c : Scanner} (h1 : BoolOnly a b) (h2 : BoolOnly b c) :
    BoolOnly a c := by
  obtain ⟨hs1, hr1, ⟨sent1, hc1, hm1⟩, hv1⟩ := h1
  obtain ⟨hs2, hr2, ⟨sent2, hc2, hm2⟩, hv2⟩ := h2
  refine ⟨SameDecls_trans hs1 hs2, hr2.trans hr1, ⟨sent1 ++ sent2, ?_, ?_⟩, ?_⟩
  · rw [hc2, hc1, List.append_assoc]
  · intro m hm
    rcases List.mem_append.1 hm with hm | hm
    · exact hm1 m hm
    · have := hm2 m hm
      rw [isBoolAt_congr hs1.1] at this
      exact this
  · intro k hk
    rw [hv2 k (by rw [isBoolAt_congr hs1.1]; exact hk), hv1 k hk]

theorem BoolOnly_opt (s s' : Scanner) (p : Ptr) (h : BoolOnly s s') :
    BoolOnly s { s' with opt := p } := h

theorem switchName_boolOnly (d : GoString) (s : Scanner) (name : GoString) :
    BoolOnly s (switchName d s name).state := by
  unfold switchName
  cases findOption s.options name with
  | none => exact BoolOnly_refl s
  | some i =>
    by_cases hb : isBoolAt s.options i = true
    · simp only [hb, if_true, Outcome.state]
      refine ⟨emit_same _ _ _, rfl, ⟨[⟨i, str "true"⟩], rfl, ?_⟩, ?_⟩
      · intro m hm
        obtain rfl : m = ⟨i, str "true"⟩ := by simpa using hm
        exact ⟨hb, rfl⟩
      · intro k hk
        apply setValue_getElem_ne
        rintro rfl
        rw [hb] at hk
        cases hk
    · simp only [hb, Outcome.state]
      exact BoolOnly_refl s

theorem cluster_boolOnly (toks : List GoString) : ∀ s : Scanner,
    BoolOnly s (cluster s toks).state := by
  induction toks with
  | nil => intro s; exact BoolOnly_refl s
  | cons tok toks ih =>
    intro s
    have h := switchName_boolOnly (str "-") s tok
    rw [cluster]
    cases hsw : switchName (str "-") s tok with
    | ok s1 =>
      rw [hsw] at h
      exact BoolOnly_trans h (ih s1)
    | exit s1 d =>
      rw [hsw] at h
      exact h

theorem processArg_boolOnly (s : Scanner) (hd : DefaultSwitches s) (t : GoString)
    (ht : NotPlain t) : BoolOnly s (processArg s t).state := by
  rw [processArg_cases s hd t]
  split_ifs with h1 h2 h3
  · exact BoolOnly_refl s
  · exact switchName_boolOnly _ _ _
  · exact cluster_boolOnly _ _
  · rcases ht with h | h | h
    · exact absurd h h1
    · exact absurd h h2
    · exact absurd h h3

theorem processTail_boolOnly (toks : List GoString) : ∀ s : Scanner, DefaultSwitches s →
    (∀ t ∈ toks, NotPlain t) → BoolOnly s (processTail s toks).state := by
  induction toks with
  | nil => intro s _ _; exact BoolOnly_refl s
  | cons t toks ih =>
    intro s hd ht
    have h := processArg_boolOnly s hd t (ht t (List.mem_cons_self _ _))
    rw [processTail]
    cases hp : processArg s t with
    | ok s1 =>
      rw [hp] at h
      exact BoolOnly_trans h (ih s1 (SameDecls_default h.1 hd) (fun x hx => ht x (List.mem_cons_of_mem _ hx)))
    | exit s1 d =>
      rw [hp] at h
      exact h

theorem switchName_opt (d : GoString) (s : Scanner) (p : Ptr) (name : GoString) :
    switchName d { s with opt := p } name = switchName d s name := by
  unfold switchName
  cases findOption s.options name with
  | none => rfl
  | some i =>
    by_cases hb : isBoolAt s.options i = true
    · simp [hb, emit]
    · simp [hb]

theorem cluster_opt (toks : List GoString) (htoks : toks ≠ []) (s : Scanner) (p : Ptr) :
    cluster { s with opt := p } toks = cluster s toks := by
  obtain ⟨tok, rest, rfl⟩ := List.exists_cons_of_ne_nil htoks
  rw [cluster, cluster, switchName_opt]

theorem cluster_skip_pending (s : Scanner) (x : GoString) (i : Nat) (toks : List GoString)
    (htoks : toks ≠ []) (hf : findOption s.options x = some i)
    (hb : isBoolAt s.options i = false) :
    cluster s (x :: toks) = cluster s toks := by
  rw [cluster, switchName_pending _ s x i hf hb]
  exact cluster_opt toks htoks s (some i)

/-- C8. A dangling pending option is dropped. In every state of the scan (with the
default prefixes): a long switch `--n` whose name resolves to a non-boolean option `i`
only fills the pending slot - the channel, `Remainder` and all values stay as they
were - and when the input ends there, the run ends normally with nothing sent for it;
a character `x` of a short cluster that resolves to a non-boolean option and is
followed by further characters `cs` has no effect at all: the token does exactly what
the walk over `cs` alone does; and as long as no plain token arrives (the tokens are
empty or switches) only boolean options are sent, no entry with a non-boolean default
changes, whatever is pending, and the run does not fail unless a switch is
unresolved. So `[prog, "--name"]` with non-boolean `name` sends
nothing and leaves `Remainder` empty, and `[prog, "-xy", "v"]` with non-boolean `x`
and `y` sends only `y`, carrying `"v"`. -/
theorem C8_dangling_pending_dropped (options : List Option) (prog : GoString) :
    (∀ (s : Scanner) (n : GoString) (i : Nat), DefaultSwitches s →
      n ≠ [] → TrimSpace n = n →
      findOption s.options n = some i → isBoolAt s.options i = false →
      processTail s [str "--" ++ n] = .ok { s with opt := some i }) ∧
    (∀ (s : Scanner) (x : Nat) (cs : GoString) (i : Nat), DefaultSwitches s →
      Printable x → x ≠ 45 → cs ≠ [] → (∀ b ∈ cs, b < 0x80) →
      (∀ z, cs.getLast? = some z → isSpace z = false) →
      findOption s.options [x] = some i → isBoolAt s.options i = false →
      processArg s (str "-" ++ x :: cs) = cluster s (cs.map (fun b => [b]))) ∧
    (∀ (s : Scanner) (toks : List GoString), DefaultSwitches s →
      (∀ t ∈ toks, NotPlain t) →
      BoolOnly s (processTail s toks).state ∧
      ((∀ t ∈ toks, ¬ Unresolved s.options t) → (processTail s toks).failed = false)) ∧
    (∀ i, findOption options (str "name") = some i → isBoolAt options i = false →
      Parse (initial options) [prog, str "--name"] =
        .ok { initial options with opt := some i }) ∧
    (∀ j k, findOption options (str "x") = some j → isBoolAt options j = false →
      findOption options (str "y") = some k → isBoolAt options k = false →
      Parse (initial options) [prog, str "-xy", str "v"] =
        .ok { initial (setValue options k (str "v")) with c := [⟨k, str "v"⟩] }) := by
  have hlong : ∀ (s : Scanner) (n : GoString) (i : Nat), DefaultSwitches s →
      n ≠ [] → TrimSpace n = n →
      findOption s.options n = some i → isBoolAt s.options i = false →
      processTail s [str "--" ++ n] = .ok { s with opt := some i } := by
    intro s n i hd hn ht hf hb
    rw [str_dashes]
    simp only [processTail, List.cons_append, List.nil_append]
    rw [processArg_long s hd n hn ht, switchName_pending _ s n i hf hb]
  have hclus : ∀ (s : Scanner) (x : Nat) (cs : GoString) (i : Nat), DefaultSwitches s →
      Printable x → x ≠ 45 → cs ≠ [] → (∀ b ∈ cs, b < 0x80) →
      (∀ z, cs.getLast? = some z → isSpace z = false) →
      findOption s.options [x] = some i → isBoolAt s.options i = false →
      processArg s (str "-" ++ x :: cs) = cluster s (cs.map (fun b => [b])) := by
    intro s x cs i hd hx hx45 hcs hascii hlast hf hb
    rw [str_dash]
    have h := processArg_cluster s hd (x :: cs) (by simp)
      (by
        intro b hb'
        rcases List.mem_cons.1 hb' with rfl | hb'
        · exact hx.1
        · exact hascii b hb')
      (by
        intro a ha
        obtain rfl : x = a := by simpa using ha
        exact hx.2)
      (by
        intro z hz
        apply hlast z
        obtain ⟨c0, cs', rfl⟩ := List.exists_cons_of_ne_nil hcs
        rw [← hz, List.getLast?_cons_cons])
      (by
        rintro ⟨-, h⟩
        exact hx45 (by simpa using h))
    rw [List.cons_append, List.nil_append, h, List.map_cons]
    exact cluster_skip_pending s [x] i _ (by simpa using hcs) hf hb
  refine ⟨hlong, hclus, ?_, ?_, ?_⟩
  · intro s toks hd hnp
    refine ⟨processTail_boolOnly toks s hd hnp, ?_⟩
    intro hres
    cases hfl : (processTail s toks).failed with
    | false => rfl
    | true =>
      obtain ⟨t, ht, hu⟩ := (processTail_failed toks s hd).1 hfl
      exact absurd hu (hres t ht)
  · intro i hf hb
    have := hlong { initial options with Remainder := [], c := [], opt := none } (str "name") i
      ⟨rfl, rfl⟩ (by decide) (by decide) hf hb
    simp only [Parse, processArgs, List.tail_cons]
    exact this
  · intro j k hj hbj hk hbk
    have h1 := hclus { initial options with Remainder := [], c := [], opt := none } 120
      (str "y") j ⟨rfl, rfl⟩ (by decide) (by decide) (by decide) (by decide) (by decide)
      hj hbj
    have e : str "-" ++ 120 :: str "y" = str "-xy" := by decide
    rw [e] at h1
    simp only [Parse, processArgs, List.tail_cons, processTail]
    rw [h1]
    have e2 : (str "y").map (fun b => [b]) = [str "y"] := by decide
    rw [e2]
    simp only [cluster]
    rw [switchName_pending _ _ (str "y") k hk hbk]
    simp only [initial]
    rw [processArg_plain _ ⟨rfl, rfl⟩ (str "v") (by decide) (by decide)]
    have e3 : TrimSpace (str "v") = str "v" := by decide
    simp [emit, e3]

/-- Instance of C8 on `regXY`: `-xy v` sends only `y` with `"v"`, and `--name` alone
sends nothing. -/
theorem C8_dangling_pending_dropped_witness :
    Parse (initial regXY) [str "prog", str "-xy", str "v"] =
      .ok { initial (setValue regXY 2 (str "v")) with c := [⟨2, str "v"⟩] } ∧
    Parse (initial regXY) [str "prog", str "--name"] =
      .ok { initial regXY with opt := some 0 } :=
  ⟨(C8_dangling_pending_dropped regXY (str "prog")).2.2.2.2 1 2 (by decide) (by decide)
      (by decide) (by decide),
    (C8_dangling_pending_dropped regXY (str "prog")).2.2.2.1 0 (by decide) (by decide)⟩

theorem Tracks_refl (σ : Nat → Nat) (s s' : Scanner) (h : Sim σ s s') :
    Tracks σ s s' (.ok s) (.ok s') :=
  ⟨rfl, h, [], [], by simp [Outcome.state], by simp [Outcome.state],
    by simp [Outcome.state], by simp [Outcome.state]⟩

theorem Tracks_step {σ : Nat → Nat} {s s' s1 s1' : Scanner} {o o' : Outcome}
    (h1 : Tracks σ s s' (.ok s1) (.ok s1')) (h2 : Tracks σ s1 s1' o o') :
    Tracks σ s s' o o' := by
  obtain ⟨-, -, dc1, dr1, hc1, hc1', hr1, hr1'⟩ := h1
  obtain ⟨hf, hsim, dc2, dr2, hc2, hc2', hr2, hr2'⟩ := h2
  simp only [Outcome.state] at hc1 hc1' hr1 hr1'
  refine ⟨hf, hsim, dc1 ++ dc2, dr1 ++ dr2, ?_, ?_, ?_, ?_⟩
  · rw [hc2, hc1, List.append_assoc]
  · rw [hc2', hc1', List.map_append, List.append_assoc]
  · rw [hr2, hr1, List.append_assoc]
  · rw [hr2', hr1', List.append_assoc]

theorem emit_tracks (σ : Nat → Nat) (s s' : Scanner) (h : Sim σ s s') (i : Nat)
    (v : GoString) : Tracks σ s s' (.ok (emit s i v)) (.ok (emit s' (σ i) v)) := by
  obtain ⟨hf, hb, hopt, hd, hd'⟩ := h
  refine ⟨rfl, ⟨?_, ?_, rfl, hd, hd'⟩, [⟨i, v⟩], [], rfl, rfl, ?_, ?_⟩
  · intro name
    simp only [Outcome.state, emit, findOption_setValue]
    exact hf name
  · intro name k hk
    simp only [Outcome.state, emit, findOption_setValue, isBoolAt_setValue] at hk ⊢
    exact hb name k hk
  · simp [Outcome.state, emit]
  · simp [Outcome.state, emit]

theorem switchName_tracks (σ : Nat → Nat) (d : GoString) (s s' : Scanner) (h : Sim σ s s')
    (name : GoString) : Tracks σ s s' (switchName d s name) (switchName d s' name) := by
  have hf := h.1 name
  unfold switchName
  cases hfo : findOption s.options name with
  | none =>
    rw [hfo] at hf
    rw [hf]
    simp only [Option.map_none']
    exact ⟨rfl, ⟨h.1, h.2.1, rfl, h.2.2.2.1, h.2.2.2.2⟩, [], [],
      by simp [Outcome.state], by simp [Outcome.state], by simp [Outcome.state],
      by simp [Outcome.state]⟩
  | some i =>
    rw [hfo] at hf
    rw [hf]
    simp only [Option.map_some']
    have hb := h.2.1 name i hfo
    by_cases hbi : isBoolAt s.options i = true
    · rw [hbi] at hb
      simp only [hb, hbi, if_true]
      exact emit_tracks σ s s' h i _
    · rw [Bool.not_eq_true] at hbi
      rw [hbi] at hb
      simp only [hb, hbi]
      exact ⟨rfl, ⟨h.1, h.2.1, rfl, h.2.2.2.1, h.2.2.2.2⟩, [], [],
        by simp [Outcome.state], by simp [Outcome.state], by simp [Outcome.state],
        by simp [Outcome.state]⟩

theorem Tracks_exit_inv {σ : Nat → Nat} {s s' s1 : Scanner} {d : GoString} {o' : Outcome}
    (h : Tracks σ s s' (.exit s1 d) o') : ∃ s1' d', o' = .exit s1' d' := by
  cases o' with
  | ok s1' => have := h.1; simp [Outcome.failed] at this
  | exit s1' d' => exact ⟨s1', d', rfl⟩

theorem Tracks_ok_inv {σ : Nat → Nat} {s s' s1 : Scanner} {o' : Outcome}
    (h : Tracks σ s s' (.ok s1) o') : ∃ s1', o' = .ok s1' := by
  cases o' with
  | ok s1' => exact ⟨s1', rfl⟩
  | exit s1' d' => have := h.1; simp [Outcome.failed] at this

theorem cluster_tracks (σ : Nat → Nat) (toks : List GoString) : ∀ s s' : Scanner,
    Sim σ s s' → Tracks σ s s' (cluster s toks) (cluster s' toks) := by
  induction toks with
  | nil => intro s s' h; exact Tracks_refl σ s s' h
  | cons tok toks ih =>
    intro s s' h
    have ht := switchName_tracks σ (str "-") s s' h tok
    rw [cluster, cluster]
    cases hsw : switchName (str "-") s tok with
    | ok s1 =>
      rw [hsw] at ht
      obtain ⟨s1', hs1'⟩ := Tracks_ok_inv ht
      rw [hs1'] at ht ⊢
      exact Tracks_step ht (ih s1 s1' ht.2.1)
    | exit s1 d =>
      rw [hsw] at ht
      obtain ⟨s1', d', hs1'⟩ := Tracks_exit_inv ht
      rw [hs1'] at ht ⊢
      exact ht

theorem processArg_tracks (σ : Nat → Nat) (s s' : Scanner) (h : Sim σ s s') (t : GoString) :
    Tracks σ s s' (processArg s t) (processArg s' t) := by
  rw [processArg_cases s h.2.2.2.1 t, processArg_cases s' h.2.2.2.2 t]
  split_ifs
  · exact Tracks_refl σ s s' h
  · exact switchName_tracks σ _ s s' h _
  · exact cluster_tracks σ _ s s' h
  · have hopt := h.2.2.1
    cases hso : s.opt with
    | none =>
      rw [hso] at hopt
      rw [hopt]
      simp only [Option.map_none']
      exact ⟨rfl, ⟨h.1, h.2.1, by simp [Outcome.state, hso, hopt], h.2.2.2.1, h.2.2.2.2⟩,
        [], [TrimSpace t], by simp [Outcome.state], by simp [Outcome.state],
        by simp [Outcome.state], by simp [Outcome.state]⟩
    | some i =>
      rw [hso] at hopt
      rw [hopt]
      simp only [Option.map_some']
      exact emit_tracks σ s s' h i _

theorem processTail_tracks (σ : Nat → Nat) (toks : List GoString) : ∀ s s' : Scanner,
    Sim σ s s' → Tracks σ s s' (processTail s toks) (processTail s' toks) := by
  induction toks with
  | nil => intro s s' h; exact Tracks_refl σ s s' h
  | cons t toks ih =>
    intro s s' h
    have ht := processArg_tracks σ s s' h t
    rw [processTail, processTail]
    cases hp : processArg s t with
    | ok s1 =>
      rw [hp] at ht
      obtain ⟨s1', hs1'⟩ := Tracks_ok_inv ht
      rw [hs1'] at ht ⊢
      exact Tracks_step ht (ih s1 s1' ht.2.1)
    | exit s1 d =>
      rw [hp] at ht
      obtain ⟨s1', d', hs1'⟩ := Tracks_exit_inv ht
      rw [hs1'] at ht ⊢
      exact ht

theorem map_rename_id (l : List Sent) : l.map (Sent.rename id) = l := by
  induction l with
  | nil => rfl
  | cons m l ih => rw [List.map_cons, ih]; rfl

theorem Parse_initial (options : List Option) (prog : GoString) (toks : List GoString) :
    Parse (initial options) (prog :: toks) = processTail (initial options) toks := rfl

/-- C9. Emission order is input order. If the scan of `prog :: A` ends normally with an
empty pending slot, then the scan of `prog :: (A ++ B)` sends the messages of `A`
followed by the messages of the scan of `prog :: B`, collects the `Remainder` of `A`
followed by the `Remainder` of `B`, and fails exactly when the scan of `B` fails. And
if the registry is redeclared in another order - entry `i` now at place `σ i`, every
name resolving to the same entry as before - then every scan sends the same options
(the pointers renamed by `σ`) with the same values in the same order, collects the same
`Remainder` and fails on the same inputs. -/
theorem C9_emission_order_is_input_order (options : List Option) (prog : GoString)
    (A B : List GoString) (sA : Scanner)
    (hA : Parse (initial options) (prog :: A) = .ok sA) (hpend : sA.opt = none) :
    ((Parse (initial options) (prog :: (A ++ B))).state.c =
        sA.c ++ (Parse (initial options) (prog :: B)).state.c ∧
      (Parse (initial options) (prog :: (A ++ B))).state.Remainder =
        sA.Remainder ++ (Parse (initial options) (prog :: B)).state.Remainder ∧
      (Parse (initial options) (prog :: (A ++ B))).failed =
        (Parse (initial options) (prog :: B)).failed) ∧
    (∀ (σ : Nat → Nat) (options' : List Option) (toks : List GoString),
      (∀ i o, options[i]? = some o → options'[σ i]? = some o) →
      (∀ name, findOption options' name = (findOption options name).map σ) →
      (Parse (initial options') (prog :: toks)).state.c =
          ((Parse (initial options) (prog :: toks)).state.c).map (Sent.rename σ) ∧
        (Parse (initial options') (prog :: toks)).state.Remainder =
          (Parse (initial options) (prog :: toks)).state.Remainder ∧
        (Parse (initial options') (prog :: toks)).failed =
          (Parse (initial options) (prog :: toks)).failed) := by
  have hd : DefaultSwitches (initial options) := ⟨rfl, rfl⟩
  constructor
  · rw [Parse_initial] at hA ⊢
    rw [Parse_initial]
    have hsame := processTail_same A _ hd
    rw [hA] at hsame
    have hsim : Sim id sA (initial options) := by
      refine ⟨?_, ?_, ?_, SameDecls_default hsame hd, hd⟩
      · intro name
        rw [Option.map_id_fun, id]
        exact (findOption_congr hsame.1 name).symm
      · intro name i _
        exact (isBoolAt_congr hsame.1 i).symm
      · rw [hpend]; rfl
    obtain ⟨hf, -, dc, dr, hc, hc', hr, hr'⟩ := processTail_tracks id B _ _ hsim
    rw [processTail_append, hA]
    simp only [map_rename_id] at hc'
    have e1 : (initial options).c = [] := rfl
    have e2 : (initial options).Remainder = [] := rfl
    rw [e1, List.nil_append] at hc'
    rw [e2, List.nil_append] at hr'
    simp only []
    rw [hc, hr, hc', hr', hf]
    exact ⟨rfl, rfl, rfl⟩
  · intro σ options' toks hperm hres
    rw [Parse_initial, Parse_initial]
    have hsim : Sim σ (initial options) (initial options') := by
      refine ⟨hres, ?_, rfl, ⟨rfl, rfl⟩, ⟨rfl, rfl⟩⟩
      intro name i hfi
      obtain ⟨⟨o, ho, -⟩, -⟩ := (findOption_eq_some_iff _ _ _).1 hfi
      have ho' : options[i]? = some o := ho
      show isBoolAt options' (σ i) = isBoolAt options i
      rw [isBoolAt_of_get _ _ o ho', isBoolAt_of_get _ _ o (hperm i o ho')]
    obtain ⟨hf, -, dc, dr, hc, hc', hr, hr'⟩ := processTail_tracks σ toks _ _ hsim
    have e1 : ∀ os, (initial os).c = [] := fun _ => rfl
    have e2 : ∀ os, (initial os).Remainder = [] := fun _ => rfl
    rw [e1, List.nil_append] at hc hc'
    rw [e2, List.nil_append] at hr hr'
    rw [hc, hr, hc', hr', hf]
    exact ⟨rfl, rfl, rfl⟩


/-- Instance of C9 on `regNameX`: `--name Alice` followed by `-x f`, and the same scan
over `regXName`, the registry declared in the other order. -/
theorem C9_emission_order_is_input_order_witness :
    ((Parse (initial regNameX)
          (str "prog" :: ([str "--name", str "Alice"] ++ [str "-x", str "f"]))).state.c =
        [⟨0, str "Alice"⟩] ++
          (Parse (initial regNameX) (str "prog" :: [str "-x", str "f"])).state.c) ∧
    ((Parse (initial regXName) (str "prog" :: [str "--name", str "Alice", str "-x"])).state.c =
        ((Parse (initial regNameX)
          (str "prog" :: [str "--name", str "Alice", str "-x"])).state.c).map
            (Sent.rename swap01)) :=
  ⟨(C9_emission_order_is_input_order regNameX (str "prog") [str "--name", str "Alice"]
      [str "-x", str "f"]
      { initial (setValue regNameX 0 (str "Alice")) with c := [⟨0, str "Alice"⟩] }
      (by decide) rfl).1.1,
    ((C9_emission_order_is_input_order regNameX (str "prog") [str "--name", str "Alice"]
      [str "-x", str "f"]
      { initial (setValue regNameX 0 (str "Alice")) with c := [⟨0, str "Alice"⟩] }
      (by decide) rfl).2 swap01 regXName [str "--name", str "Alice", str "-x"]
      (by
        intro i o h
        match i, h with
        | 0, h =>
          obtain rfl : _ = o := by simpa [regNameX, Add] using h
          decide
        | 1, h =>
          obtain rfl : _ = o := by simpa [regNameX, Add] using h
          decide
        | i + 2, h => simp [regNameX, Add] at h)
      (by
        intro name
        by_cases h1 : name = str "name"
        · subst h1; decide
        by_cases h2 : name = str "n"
        · subst h2; decide
        by_cases h3 : name = str "extra"
        · subst h3; decide
        by_cases h4 : name = str "x"
        · subst h4; decide
        have h1 : ¬ str "name" = name := fun h => h1 h.symm
        have h2 : ¬ str "n" = name := fun h => h2 h.symm
        have h3 : ¬ str "extra" = name := fun h => h3 h.symm
        have h4 : ¬ str "x" = name := fun h => h4 h.symm
        simp [regXName, regNameX, Add, findOption, h1, h2, h3, h4])).1⟩

theorem cluster_single (s : Scanner) (tok : GoString) :
    cluster s [tok] = switchName (str "-") s tok := by
  rw [cluster]
  cases switchName (str "-") s tok <;> rfl

theorem processTail_singles (cs : GoString) : ∀ s : Scanner, DefaultSwitches s →
    (∀ b ∈ cs, Printable b) →
    processTail s (cs.map (fun ch => str "-" ++ [ch])) = cluster s (cs.map (fun b => [b])) := by
  induction cs with
  | nil => intro s _ _; rfl
  | cons ch cs ih =>
    intro s hd hp
    have h1 : processArg s (str "-" ++ [ch]) = switchName (str "-") s [ch] := by
      rw [str_dash]
      have := processArg_short s hd [ch] (by simp)
        (fun b hb => hp b (by
          obtain rfl : b = ch := by simpa using hb
          exact List.mem_cons_self _ _)) (by simp)
      rw [List.cons_append, List.nil_append, this]
      exact cluster_single s [ch]
    have hsame := (switchName_same (str "-") s [ch]).1
    rw [List.map_cons, List.map_cons, processTail, cluster, h1]
    cases hsw : switchName (str "-") s [ch] with
    | ok s1 =>
      rw [hsw] at hsame
      exact ih s1 (SameDecls_default hsame hd) (fun b hb => hp b (List.mem_cons_of_mem _ hb))
    | exit s1 d => rfl

/-- C10. Cluster expansion. In every state of the scanner (with the default prefixes)
and for every non-empty sequence `cs` of single-byte non-blank characters such that
`"-" ++ cs` is not of long-switch form, processing the one token `"-" ++ cs` gives
exactly the outcome of processing the tokens `"-" ++ [c]`, one per character of `cs`
and in the same order: the same messages on the channel, the same `Remainder`, the same
pending slot, the same values, and in case of failure the same exit with the same
diagnostic. -/
theorem C10_cluster_expansion (s : Scanner) (cs : GoString) (hd : DefaultSwitches s)
    (hne : cs ≠ []) (hp : ∀ b ∈ cs, Printable b)
    (hlong : ¬ (2 ≤ cs.length ∧ cs.head? = some 45)) :
    processArg s (str "-" ++ cs) = processTail s (cs.map (fun ch => str "-" ++ [ch])) := by
  rw [processTail_singles cs s hd hp, str_dash]
  exact processArg_short s hd cs hne hp hlong

/-- Instance of C10: `-xnx` against `-x -n -x` on `regNameX`, from a state in which
`name` is pending and `Remainder` holds one token. -/
theorem C10_cluster_expansion_witness :
    processArg { initial regNameX with opt := some 0, Remainder := [str "r"] }
        (str "-" ++ str "xnx") =
      processTail { initial regNameX with opt := some 0, Remainder := [str "r"] }
        ((str "xnx").map (fun ch => str "-" ++ [ch])) :=
  C10_cluster_expansion _ (str "xnx") ⟨rfl, rfl⟩ (by decide) (by decide) (by decide)

theorem findOption_eq_none_iff (options : List Option) (name : GoString) :
    findOption options name = none ↔
      ∀ o ∈ options, ¬ (o.Name = name ∨ o.ShortName = name) := by
  induction options with
  | nil => simp [findOption]
  | cons o rest ih =>
    by_cases ho : o.Name = name ∨ o.ShortName = name
    · rw [findOption, if_pos ho]
      constructor
      · intro h; cases h
      · intro h; exact absurd ho (h o (List.mem_cons_self _ _))
    · rw [findOption, if_neg ho, Option.map_eq_none', ih]
      constructor
      · intro h x hx
        rcases List.mem_cons.1 hx with rfl | hx
        · exact ho
        · exact h x hx
      · intro h x hx
        exact h x (List.mem_cons_of_mem _ hx)

theorem findOption_append_of_some (options more : List Option) (name : GoString) (i : Nat)
    (h : findOption options name = some i) : findOption (options ++ more) name = some i := by
  induction options generalizing i with
  | nil => simp [findOption] at h
  | cons o rest ih =>
    by_cases ho : o.Name = name ∨ o.ShortName = name
    · rw [findOption, if_pos ho] at h
      rw [List.cons_append, findOption, if_pos ho, h]
    · rw [findOption, if_neg ho] at h
      rw [List.cons_append, findOption, if_neg ho]
      cases hf : findOption rest name with
      | none => rw [hf] at h; simp at h
      | some j =>
        rw [hf] at h
        rw [ih j hf]
        exact h

/-- C11. `findOption` is the first match in declaration order. `findOption(token)` is the
pointer `i` exactly when entry `i` has `token` as `Name` or `ShortName` and no entry
before it has; it is `nil` exactly when no entry of the registry has `token` as `Name` or
`ShortName`. `Add` checks nothing: a name that already resolves keeps resolving to the
same, earlier, entry after any further `Add`, also one that uses the name again. -/
theorem C11_findOption_first_match (options : List Option) (token : GoString) :
    (∀ i, findOption options token = some i ↔
      (∃ o, options[i]? = some o ∧ (o.Name = token ∨ o.ShortName = token)) ∧
      ∀ k o, k < i → options[k]? = some o → ¬ (o.Name = token ∨ o.ShortName = token)) ∧
    (findOption options token = none ↔
      ∀ o ∈ options, ¬ (o.Name = token ∨ o.ShortName = token)) ∧
    (∀ (shortname name description : GoString) (defaultvalue : Iface),
      (Add options shortname name description defaultvalue).length = options.length + 1 ∧
      ∀ i, findOption options token = some i →
        findOption (Add options shortname name description defaultvalue) token = some i) := by
  refine ⟨fun i => findOption_eq_some_iff options token i,
    findOption_eq_none_iff options token, ?_⟩
  intro shortname name description defaultvalue
  refine ⟨by simp [Add], ?_⟩
  intro i h
  exact findOption_append_of_some options _ token i h

/-- Instance of C11 on `regDup`, made by two calls of `Add` with the same names: both
names resolve to the first entry. -/
theorem C11_findOption_first_match_witness :
    findOption regDup (str "name") = some 0 ∧ findOption regDup (str "n") = some 0 :=
  ⟨((C11_findOption_first_match
      (Add [] (str "n") (str "name") (str "first") (.string [])) (str "name")).2.2
      (str "n") (str "name") (str "second") (.int 7)).2 0 (by decide),
    ((C11_findOption_first_match
      (Add [] (str "n") (str "name") (str "first") (.string [])) (str "n")).2.2
      (str "n") (str "name") (str "second") (.int 7)).2 0 (by decide)⟩

theorem ShortForm_of_LongForm (v : GoString) (h : LongForm v) : ShortForm v := by
  obtain ⟨h3, h2⟩ := h
  rcases v with _ | ⟨a, _ | ⟨b, w⟩⟩
  · simp at h3
  · simp at h3
  · simp only [List.take_succ_cons, List.take_zero, List.cons.injEq] at h2
    refine ⟨by simp, ?_⟩
    simp [h2.1]

theorem processTail_all_plain (toks : List GoString) : ∀ s : Scanner, DefaultSwitches s →
    s.opt = none → (∀ t ∈ toks, ¬ ShortForm (TrimSpace t)) →
    processTail s toks =
      .ok { s with Remainder := s.Remainder ++ (nonBlank toks).map TrimSpace } := by
  induction toks with
  | nil =>
    intro s _ _ _
    simp [processTail, nonBlank]
  | cons t toks ih =>
    intro s hd hopt hp
    have ht := hp t (List.mem_cons_self _ _)
    have hl : ¬ LongForm (TrimSpace t) := fun h => ht (ShortForm_of_LongForm _ h)
    rw [processTail, processArg_cases s hd t]
    by_cases h1 : TrimSpace t = []
    · rw [if_pos h1]
      simp only []
      rw [ih s hd hopt (fun x hx => hp x (List.mem_cons_of_mem _ hx))]
      simp [nonBlank, h1]
    · rw [if_neg h1, if_neg hl, if_neg ht, hopt]
      simp only []
      rw [ih { s with Remainder := s.Remainder ++ [TrimSpace t], opt := none } ⟨hd.1, hd.2⟩ rfl
        (fun x hx => hp x (List.mem_cons_of_mem _ hx))]
      simp [nonBlank, h1]

/-- C14. Plain tokens accumulate in `Remainder`. Whatever the registry and whatever
`Remainder`, channel and pending slot hold from before (prefixes at their defaults), if
no token after index 0 is, once trimmed, `-` followed by at least one more byte, then
`Parse` ends normally, sends nothing, and `Remainder` is exactly the list of the trimmed
non-empty tokens after index 0, in input order; nothing of the earlier `Remainder` is
kept. -/
theorem C14_plain_tokens_accumulate (s : Scanner) (args : List GoString)
    (hd : DefaultSwitches s) (hplain : ∀ t ∈ args.tail, ¬ ShortForm (TrimSpace t)) :
    Parse s args =
      .ok { s with Remainder := (nonBlank args.tail).map TrimSpace, c := [], opt := none } := by
  simp only [Parse, processArgs]
  rw [processTail_all_plain args.tail
    { s with Remainder := [], c := [], opt := none } ⟨hd.1, hd.2⟩ rfl hplain]
  simp

/-- Instance of C14: three plain tokens and an empty one, scanned from a state that
still holds an old `Remainder`. -/
theorem C14_plain_tokens_accumulate_witness :
    Parse { initial regNameX with Remainder := [str "old"] }
        [str "prog", str " a ", str "", str "-", str "b c"] =
      .ok { initial regNameX with Remainder := [str "a", str "-", str "b c"] } :=
  (C14_plain_tokens_accumulate { initial regNameX with Remainder := [str "old"] }
    [str "prog", str " a ", str "", str "-", str "b c"] ⟨rfl, rfl⟩ (by decide)).trans
    (by decide)

theorem processTail_nonBlank (toks : List GoString) : ∀ s : Scanner,
    processTail s toks = processTail s (nonBlank toks) := by
  induction toks with
  | nil => intro s; rfl
  | cons t toks ih =>
    intro s
    by_cases h1 : TrimSpace t = []
    · have e : nonBlank (t :: toks) = nonBlank toks := by simp [nonBlank, h1]
      rw [e, processTail, processArg_empty s t h1]
      exact ih s
    · have e : nonBlank (t :: toks) = t :: nonBlank toks := by simp [nonBlank, h1]
      rw [e, processTail, processTail]
      cases processArg s t with
      | ok s1 => exact ih s1
      | exit s1 d => rfl

/-- C15. Empty tokens have no effect. Two argument vectors whose tokens after index 0
are the same once the tokens that are empty or all white space are taken out give the
same outcome from every state: the same messages, the same `Remainder`, the same values,
the same pending slot, the same exit; the token at index 0 plays no part. In particular
an option pending before such a token is still pending after it and takes the next
plain token as its value. -/
theorem C15_empty_tokens_skipped (s : Scanner) (p p' : GoString)
    (toks toks' : List GoString) (h : nonBlank toks = nonBlank toks') :
    Parse s (p :: toks) = Parse s (p' :: toks') ∧
    (∀ e, TrimSpace e = [] → processArg s e = .ok s) ∧
    (∀ (i : Nat) (e t : GoString), DefaultSwitches s → s.opt = some i →
      TrimSpace e = [] → TrimSpace t ≠ [] → ¬ ShortForm (TrimSpace t) →
      processTail s [e, t] = .ok (emit s i (TrimSpace t))) := by
  refine ⟨?_, fun e he => processArg_empty s e he, ?_⟩
  · simp only [Parse, processArgs, List.tail_cons]
    rw [processTail_nonBlank toks, processTail_nonBlank toks', h]
  · intro i e t hd hopt he ht hs
    have hl : ¬ LongForm (TrimSpace t) := fun h => hs (ShortForm_of_LongForm _ h)
    simp only [processTail]
    rw [processArg_empty s e he]
    simp only []
    rw [processArg_plain_form s hd t ht hl hs, hopt]

/-- Instance of C15: blanks inserted around `--name Alice` and another program name
change nothing. -/
theorem C15_empty_tokens_skipped_witness :
    Parse (initial regNameX) [str "prog", str "--name", str "  ", str "Alice"] =
      Parse (initial regNameX) [str "other", str "", str "--name", str "Alice", str "\t"] :=
  (C15_empty_tokens_skipped (initial regNameX) (str "prog") (str "other")
    [str "--name", str "  ", str "Alice"] [str "", str "--name", str "Alice", str "\t"]
    (by decide)).1

theorem pendingAfter_congr {a b : List Option} (h : decls a = decls b) (name : GoString) :
    pendingAfter a name = pendingAfter b name := by
  unfold pendingAfter
  rw [findOption_congr h name]
  cases findOption b name with
  | none => rfl
  | some i => simp only [isBoolAt_congr h i]

theorem switchName_ok_opt (d : GoString) (s s' : Scanner) (name : GoString)
    (h : switchName d s name = .ok s') : s'.opt = pendingAfter s.options name := by
  unfold switchName at h
  unfold pendingAfter
  cases hf : findOption s.options name with
  | none => rw [hf] at h; cases h
  | some i =>
    rw [hf] at h
    by_cases hb : isBoolAt s.options i = true
    · simp only [hb, if_true, Outcome.ok.injEq] at h ⊢
      rw [← h]; rfl
    · rw [Bool.not_eq_true] at hb
      simp only [hb, Bool.false_eq_true, if_false, Outcome.ok.injEq] at h ⊢
      rw [← h]

theorem cluster_ok_opt (toks : List GoString) : ∀ (s s' : Scanner), toks ≠ [] →
    cluster s toks = .ok s' → s'.opt = pendingAfter s.options (toks.getLastD []) := by
  induction toks with
  | nil => intro _ _ h; exact absurd rfl h
  | cons tok toks ih =>
    intro s s' _ h
    have hsame := (switchName_same (str "-") s tok).1
    rw [cluster] at h
    cases hsw : switchName (str "-") s tok with
    | exit s1 d => rw [hsw] at h; cases h
    | ok s1 =>
      rw [hsw] at h hsame
      cases toks with
      | nil =>
        simp only [cluster, Outcome.ok.injEq] at h
        rw [← h]
        exact switchName_ok_opt _ s s1 tok hsw
      | cons t2 toks2 =>
        have := ih s1 s' (by simp) h
        have e := pendingAfter_congr hsame.1 ((t2 :: toks2).getLastD [])
        simp only [Outcome.state] at e
        rw [this, e]
        simp [List.getLastD]

theorem rangeToks_ne_nil (w : GoString) (h : w ≠ []) : rangeToks 0 w ≠ [] := by
  obtain ⟨c0, rest, rfl⟩ := List.exists_cons_of_ne_nil h
  simp [rangeToks]

theorem processArg_switch_opt (s s' : Scanner) (hd : DefaultSwitches s) (t : GoString)
    (hsw : ShortForm (TrimSpace t)) (h : processArg s t = .ok s') :
    s'.opt = pendingAfter s.options (lastName t) := by
  have hne : TrimSpace t ≠ [] := by
    intro h0
    rw [h0] at hsw
    exact absurd hsw (by decide)
  unfold lastName
  by_cases hl : LongForm (TrimSpace t)
  · rw [processArg_long_form s hd t hl] at h
    rw [if_pos hl]
    exact switchName_ok_opt _ s s' _ h
  · rw [processArg_short_form s hd t hl hsw] at h
    rw [if_neg hl]
    apply cluster_ok_opt _ s s' _ h
    apply rangeToks_ne_nil
    -- the text after the prefix is not empty once trimmed
    obtain ⟨h2, h1⟩ := hsw
    rcases hv : TrimSpace t with _ | ⟨a, w⟩
    · exact absurd hv hne
    · rw [hv] at h2 h1
      have htr := (runes_TrimSpace_trimmed t).2
      rw [hv] at htr
      obtain rfl : a = 45 := by simpa using h1
      have hw : w ≠ [] := by
        rintro rfl
        simp at h2
      have h4 := no_trailing_tail 45 w (by decide) htr hw
      simp only [List.drop_succ_cons, List.drop_zero]
      exact fun h0 => hw (TrimSpace_eq_nil_of_no_trailing w h4 h0)

/-- C19 (as amended). A boolean switch empties the pending slot. Let `t` be a plain
token (trimmed, it is non-empty and does not begin with `-`). If `n` and `b` are names
that are non-empty, free of surrounding white space and resolve to a non-boolean
option `i` and to a boolean option `j`, then scanning `[prog, "--" ++ n, "--" ++ b, t]`
sends only `j`, with value `"true"`, leaves entry `i` as it was and puts the trimmed
`t` into `Remainder`; the same holds for the cluster `[prog, "-" ++ [sn, sb], t]` when
`sn` and `sb` are single-byte non-blank characters resolving to `i` and `j` and `sn` is
not `-`. In general, from any state, after a token of switch form has been processed
without failure the pending slot is what the last name looked up in that token leaves:
the option found if its default is not boolean, nothing otherwise. -/
theorem C19_boolean_switch_empties_pending (options : List Option) (prog t : GoString)
    (ht : TrimSpace t ≠ []) (htp : ¬ str "-" <+: TrimSpace t) :
    (∀ (n b : GoString) (i j : Nat), n ≠ [] → TrimSpace n = n → b ≠ [] → TrimSpace b = b →
      findOption options n = some i → isBoolAt options i = false →
      findOption options b = some j → isBoolAt options j = true →
      Parse (initial options) [prog, str "--" ++ n, str "--" ++ b, t] =
          .ok { initial (setValue options j (str "true")) with
                Remainder := [TrimSpace t]
                c := [⟨j, str "true"⟩] } ∧
        (setValue options j (str "true"))[i]? = options[i]?) ∧
    (∀ (sn sb : Nat) (i j : Nat), Printable sn → sn ≠ 45 → Printable sb →
      findOption options [sn] = some i → isBoolAt options i = false →
      findOption options [sb] = some j → isBoolAt options j = true →
      Parse (initial options) [prog, str "-" ++ [sn, sb], t] =
          .ok { initial (setValue options j (str "true")) with
                Remainder := [TrimSpace t]
                c := [⟨j, str "true"⟩] } ∧
        (setValue options j (str "true"))[i]? = options[i]?) ∧
    (∀ (s s' : Scanner) (tok : GoString), DefaultSwitches s → ShortForm (TrimSpace tok) →
      processArg s tok = .ok s' → s'.opt = pendingAfter s.options (lastName tok)) := by
  rw [str_dash] at htp
  have hne : ∀ i j, isBoolAt options i = false → isBoolAt options j = true → i ≠ j := by
    rintro i j hi hj rfl
    rw [hi] at hj
    cases hj
  refine ⟨?_, ?_, fun s s' tok hd hsw h => processArg_switch_opt s s' hd tok hsw h⟩
  · intro n b i j hn hnt hb hbt hfi hbi hfj hbj
    refine ⟨?_, setValue_getElem_ne _ _ _ _ (hne i j hbi hbj)⟩
    rw [Parse_initial, str_dashes]
    simp only [processTail, List.cons_append, List.nil_append]
    rw [processArg_long _ ⟨rfl, rfl⟩ n hn hnt, switchName_pending _ _ n i hfi hbi]
    simp only []
    rw [processArg_long _ ⟨rfl, rfl⟩ b hb hbt, switchName_bool _ _ b j hfj hbj]
    simp only [emit]
    rw [processArg_plain _ ⟨rfl, rfl⟩ t ht htp]
    simp [initial]
  · intro sn sb i j hsn hsn45 hsb hfi hbi hfj hbj
    refine ⟨?_, setValue_getElem_ne _ _ _ _ (hne i j hbi hbj)⟩
    rw [Parse_initial, str_dash]
    simp only [processTail, List.cons_append, List.nil_append]
    rw [processArg_short _ ⟨rfl, rfl⟩ [sn, sb] (by simp)
      (by
        intro x hx
        simp only [List.mem_cons, List.mem_singleton, List.not_mem_nil, or_false] at hx
        rcases hx with rfl | rfl
        · exact hsn
        · exact hsb)
      (by
        rintro ⟨-, h⟩
        exact hsn45 (by simpa using h))]
    simp only [List.map_cons, List.map_nil, cluster]
    rw [switchName_pending _ _ [sn] i hfi hbi]
    simp only []
    rw [switchName_bool _ _ [sb] j hfj hbj]
    simp only [emit]
    rw [processArg_plain _ ⟨rfl, rfl⟩ t ht htp]
    simp [initial]

/-- Instance of C19 on `regNameX`: `--name --extra file` and `-nx file`. -/
theorem C19_boolean_switch_empties_pending_witness :
    Parse (initial regNameX) [str "prog", str "--" ++ str "name", str "--" ++ str "extra",
        str "file"] =
      .ok { initial (setValue regNameX 1 (str "true")) with
            Remainder := [TrimSpace (str "file")]
            c := [⟨1, str "true"⟩] } ∧
    Parse (initial regNameX) [str "prog", str "-" ++ [110, 120], str "file"] =
      .ok { initial (setValue regNameX 1 (str "true")) with
            Remainder := [TrimSpace (str "file")]
            c := [⟨1, str "true"⟩] } :=
  ⟨((C19_boolean_switch_empties_pending regNameX (str "prog") (str "file") (by decide)
      (by decide)).1 (str "name") (str "extra") 0 1 (by decide) (by decide) (by decide)
      (by decide) (by decide) (by decide) (by decide) (by decide)).1,
    ((C19_boolean_switch_empties_pending regNameX (str "prog") (str "file") (by decide)
      (by decide)).2.1 110 120 0 1 (by decide) (by decide) (by decide) (by decide)
      (by decide) (by decide) (by decide)).1⟩

/-- C19 as stated fails: `regNameTrailing` has the non-boolean option `name` and a
boolean option whose name is `"verbose "`, each the first match for its name, but
scanning `[prog, "--name", "--" ++ "verbose ", "file"]` sends nothing and ends in the
unknown-option exit, the token being trimmed before the lookup. -/
theorem C19_counterexample :
    (findOption regNameTrailing (str "name") = some 0 ∧ isBoolAt regNameTrailing 0 = false) ∧
    (findOption regNameTrailing (str "verbose ") = some 1 ∧
      isBoolAt regNameTrailing 1 = true) ∧
    Parse (initial regNameTrailing)
        [str "prog", str "--" ++ str "name", str "--" ++ str "verbose ", str "file"] =
      .exit (initial regNameTrailing) (str "Unknown option '--verbose' specified.\n") := by
  decide

theorem setValue_length (options : List Option) (i : Nat) (v : GoString) :
    (setValue options i v).length = options.length := by
  induction options generalizing i with
  | nil => rfl
  | cons o rest ih =>
    cases i with
    | zero => rfl
    | succ i => simp [setValue, ih i]

theorem setValue_getElem_self (options : List Option) (i : Nat) (v : GoString)
    (h : i < options.length) :
    ∃ e, (setValue options i v)[i]? = some e ∧ e.value = v := by
  induction options generalizing i with
  | nil => simp at h
  | cons o rest ih =>
    cases i with
    | zero => exact ⟨{ o with value := v }, by simp [setValue], rfl⟩
    | succ i =>
      simp only [List.length_cons] at h
      obtain ⟨e, he, hv⟩ := ih i (by omega)
      exact ⟨e, by simpa [setValue] using he, hv⟩

theorem replay_append (options : List Option) (a b : List Sent) :
    replay options (a ++ b) = replay (replay options a) b := by
  simp [replay, List.foldl_append]

theorem replay_length (sent : List Sent) : ∀ options : List Option,
    (replay options sent).length = options.length := by
  induction sent with
  | nil => intro _; rfl
  | cons m sent ih =>
    intro options
    have : replay options (m :: sent) = replay (setValue options m.ptr m.value) sent := rfl
    rw [this, ih, setValue_length]

theorem decls_replay (sent : List Sent) : ∀ options : List Option,
    decls (replay options sent) = decls options := by
  induction sent with
  | nil => intro _; rfl
  | cons m sent ih =>
    intro options
    have : replay options (m :: sent) = replay (setValue options m.ptr m.value) sent := rfl
    rw [this, ih, decls_setValue]

theorem replay_getElem_of_not_sent (sent : List Sent) : ∀ (options : List Option) (k : Nat),
    (∀ m ∈ sent, m.ptr ≠ k) → (replay options sent)[k]? = options[k]? := by
  induction sent with
  | nil => intro _ _ _; rfl
  | cons m sent ih =>
    intro options k h
    have : replay options (m :: sent) = replay (setValue options m.ptr m.value) sent := rfl
    rw [this, ih _ k (fun x hx => h x (List.mem_cons_of_mem _ hx))]
    exact setValue_getElem_ne _ _ _ _ (fun h0 => h m (List.mem_cons_self _ _) h0.symm)

theorem replay_lastSent (sent : List Sent) : ∀ (options : List Option) (k : Nat)
    (v : GoString), (∀ m ∈ sent, m.ptr < options.length) → lastSent sent k = some v →
    ∃ e, (replay options sent)[k]? = some e ∧ e.value = v := by
  induction sent using List.reverseRecOn with
  | nil => intro _ _ _ _ h; simp [lastSent] at h
  | append_singleton sent m ih =>
    intro options k v hval h
    rw [replay_append]
    have e1 : replay (replay options sent) [m] =
        setValue (replay options sent) m.ptr m.value := rfl
    rw [e1]
    by_cases hk : m.ptr = k
    · have hv : m.value = v := by
        simpa [lastSent, hk] using h
      have hlt : m.ptr < (replay options sent).length := by
        rw [replay_length]
        exact hval m (by simp)
      obtain ⟨e, he, hev⟩ := setValue_getElem_self (replay options sent) m.ptr m.value hlt
      subst hk
      exact ⟨e, he, hev.trans hv⟩
    · have h' : lastSent sent k = some v := by
        simpa [lastSent, hk] using h
      obtain ⟨e, he, hev⟩ := ih options k v (fun x hx => hval x (by simp [hx])) h'
      refine ⟨e, ?_, hev⟩
      rw [setValue_getElem_ne _ _ _ _ (fun h0 => hk h0.symm)]
      exact he

theorem findOption_lt (options : List Option) (name : GoString) (i : Nat)
    (h : findOption options name = some i) : i < options.length := by
  obtain ⟨⟨o, ho, -⟩, -⟩ := (findOption_eq_some_iff options name i).1 h
  by_contra hcon
  rw [List.getElem?_eq_none (by omega)] at ho
  cases ho

theorem Grows_refl (s : Scanner) (h : ∀ i, s.opt = some i → i < s.options.length) :
    Grows s s :=
  ⟨[], by simp, rfl, by simp, h⟩

theorem Grows_trans {a b c : Scanner} (h1 : Grows a b) (h2 : Grows b c) : Grows a c := by
  obtain ⟨s1, hc1, ho1, hv1, -⟩ := h1
  obtain ⟨s2, hc2, ho2, hv2, hp2⟩ := h2
  have hlen : b.options.length = a.options.length := by rw [ho1, replay_length]
  refine ⟨s1 ++ s2, ?_, ?_, ?_, ?_⟩
  · rw [hc2, hc1, List.append_assoc]
  · rw [ho2, ho1, replay_append]
  · intro m hm
    rcases List.mem_append.1 hm with hm | hm
    · exact hv1 m hm
    · rw [← hlen]; exact hv2 m hm
  · intro i hi
    rw [← hlen]; exact hp2 i hi

theorem emit_grows (s : Scanner) (i : Nat) (v : GoString) (h : i < s.options.length) :
    Grows s (emit s i v) :=
  ⟨[⟨i, v⟩], rfl, rfl, by simpa using h, by simp [emit]⟩

theorem switchName_grows (d : GoString) (s : Scanner) (name : GoString) :
    Grows s (switchName d s name).state := by
  unfold switchName
  cases hf : findOption s.options name with
  | none => exact ⟨[], by simp [Outcome.state], rfl, by simp, by simp [Outcome.state]⟩
  | some i =>
    have hlt := findOption_lt _ _ _ hf
    by_cases hb : isBoolAt s.options i = true
    · simp only [hb, if_true, Outcome.state]
      exact emit_grows s i _ hlt
    · simp only [hb, Outcome.state]
      refine ⟨[], by simp, rfl, by simp, ?_⟩
      intro k hk
      obtain rfl : i = k := by simpa using hk
      exact hlt

theorem cluster_grows (toks : List GoString) : ∀ s : Scanner,
    (∀ i, s.opt = some i → i < s.options.length) → Grows s (cluster s toks).state := by
  induction toks with
  | nil => intro s h; exact Grows_refl s h
  | cons tok toks ih =>
    intro s _
    have h := switchName_grows (str "-") s tok
    rw [cluster]
    cases hsw : switchName (str "-") s tok with
    | ok s1 =>
      rw [hsw] at h
      obtain ⟨sent, hc, ho, hv, hp⟩ := h
      have hlen : s1.options.length = s.options.length := by
        simp only [Outcome.state] at ho
        rw [ho, replay_length]
      exact Grows_trans ⟨sent, hc, ho, hv, hp⟩
        (ih s1 (fun i hi => by rw [hlen]; exact hp i hi))
    | exit s1 d =>
      rw [hsw] at h
      exact h

theorem processArg_grows (s : Scanner) (hopt : ∀ i, s.opt = some i → i < s.options.length)
    (t : GoString) : Grows s (processArg s t).state := by
  simp only [processArg]
  split_ifs
  · exact Grows_refl s hopt
  · exact ⟨[], by simp [Outcome.state], rfl, by simp, hopt⟩
  · exact switchName_grows _ _ _
  · exact ⟨[], by simp [Outcome.state], rfl, by simp, hopt⟩
  · exact cluster_grows _ s hopt
  · cases ho : s.opt with
    | none => exact ⟨[], by simp [Outcome.state], rfl, by simp, by simp [Outcome.state, ho]⟩
    | some i => exact emit_grows s i _ (hopt i ho)

theorem processTail_grows (toks : List GoString) : ∀ s : Scanner,
    (∀ i, s.opt = some i → i < s.options.length) → Grows s (processTail s toks).state := by
  induction toks with
  | nil => intro s h; exact Grows_refl s h
  | cons t toks ih =>
    intro s hopt
    have h := processArg_grows s hopt t
    rw [processTail]
    cases hp : processArg s t with
    | ok s1 =>
      rw [hp] at h
      obtain ⟨sent, hc, ho, hv, hpd⟩ := h
      have hlen : s1.options.length = s.options.length := by
        simp only [Outcome.state] at ho
        rw [ho, replay_length]
      exact Grows_trans ⟨sent, hc, ho, hv, hpd⟩
        (ih s1 (fun i hi => by rw [hlen]; exact hpd i hi))
    | exit s1 d =>
      rw [hp] at h
      exact h

/-- C20. Frame of a scan. Whatever the state before (registry with its stored values,
prefixes, old `Remainder`) and whatever the argument vector, after `Parse` has run, to
the end or to the unknown-option exit: the registry has the same entries in the same
order with the same `Name`, `ShortName`, `Description` and default; it is exactly the
old registry with the assignments of the messages sent made in order; so an entry for
which nothing was sent is what it was before the scan, and an entry for which something
was sent holds the value of the last message sent for it. `processArgs` alone does the
same with the messages it adds to the channel. -/
theorem C20_frame_of_scan (s : Scanner) (args : List GoString) :
    decls (Parse s args).state.options = decls s.options ∧
    (Parse s args).state.options = replay s.options (Parse s args).state.c ∧
    (∀ k, (∀ m ∈ (Parse s args).state.c, m.ptr ≠ k) →
      (Parse s args).state.options[k]? = s.options[k]?) ∧
    (∀ k v, lastSent (Parse s args).state.c k = some v →
      ∃ e, (Parse s args).state.options[k]? = some e ∧ e.value = v) ∧
    (∃ sent, (processArgs s args).state.c = s.c ++ sent ∧
      (processArgs s args).state.options = replay s.options sent) := by
  obtain ⟨sent, hc, ho, hv, -⟩ := processTail_grows args.tail
    { s with Remainder := [], c := [], opt := none } (by simp)
  obtain ⟨sent2, hc2, ho2, -, -⟩ := processTail_grows args.tail
    { s with opt := none } (by simp)
  have hc' : (Parse s args).state.c = sent := by
    simpa [Parse, processArgs] using hc
  have ho' : (Parse s args).state.options = replay s.options sent := ho
  refine ⟨?_, ?_, ?_, ?_, ⟨sent2, hc2, ho2⟩⟩
  · rw [ho', decls_replay]
  · rw [ho', hc']
  · intro k hk
    rw [ho']
    exact replay_getElem_of_not_sent sent s.options k (by rw [← hc']; exact hk)
  · intro k v hk
    rw [ho']
    rw [hc'] at hk
    exact replay_lastSent sent s.options k v hv hk


/-- Instance of C20: `name` holds `"Bob"` from an earlier scan; the scan of `-x` sends
only `x`, and `name` still holds `"Bob"` afterwards. -/
theorem C20_frame_of_scan_witness :
    (Parse (initial (setValue regNameX 0 (str "Bob"))) [str "prog", str "-x"]).state.options[0]?
      = (initial (setValue regNameX 0 (str "Bob"))).options[0]? :=
  (C20_frame_of_scan (initial (setValue regNameX 0 (str "Bob")))
    [str "prog", str "-x"]).2.2.1 0 (by decide)

/-- C13 (the code at the failing input). The tests of lines 129 and 149 compare the
first two bytes, respectively the first byte, of the token with the prefix, whatever the
length of the prefix. With `LongSwitch = "/"` the token `/name` is not a long switch:
it and the value after it go to `Remainder` and `name` is never sent. With
`ShortSwitch = "++"` the token `++n` is not a short switch either. Prefixes of the
original lengths, `LongSwitch = "++"` and `ShortSwitch = "+"`, do work. -/
theorem C13_prefix_widths_fixed :
    Parse { initial regNameX with LongSwitch := str "/" }
        [str "prog", str "/name", str "Alice"] =
      .ok { initial regNameX with LongSwitch := str "/"
                                  Remainder := [str "/name", str "Alice"] } ∧
    Parse { initial regNameX with ShortSwitch := str "++" }
        [str "prog", str "++n", str "Alice"] =
      .ok { initial regNameX with ShortSwitch := str "++"
                                  Remainder := [str "++n", str "Alice"] } ∧
    Parse { initial regNameX with LongSwitch := str "++", ShortSwitch := str "+" }
        [str "prog", str "++name", str "Alice", str "+n", str "Bob"] =
      .ok { initial (setValue regNameX 0 (str "Bob")) with
              LongSwitch := str "++"
              ShortSwitch := str "+"
              c := [⟨0, str "Alice"⟩, ⟨0, str "Bob"⟩] } := by
  decide

/-- C12 (as amended). Fall-back of the typed accessors. `Bool` never panics and returns
`false`, not the default, when the stored value is no boolean. When the stored value is
not an `int` number, `Int` returns the declared default if its dynamic type is `int`, and
`Int8`, `Int16`, `Int32`, `Uint8`, `Uint16`, `Uint32`, which convert the result of `Int`,
return that default converted; with a default of any other type all seven panic.
Likewise `Int64` with an `int64` default, `Uint` with a `uint` default and `Uint64` with
a `uint64` default, each panicking on a default of another type. -/
theorem C12_coercion_fallback (w : Nat) (o : Option) :
    (Atob o.value = none → o.Bool = false) ∧
    (Atoi w o.value = none →
      (∀ n, o.defaultval = .int n →
        o.Int w = .ok n ∧ o.Int8 w = .ok (toSigned 8 n) ∧ o.Int16 w = .ok (toSigned 16 n) ∧
        o.Int32 w = .ok (toSigned 32 n) ∧ o.Uint8 w = .ok (toUnsigned 8 n) ∧
        o.Uint16 w = .ok (toUnsigned 16 n) ∧ o.Uint32 w = .ok (toUnsigned 32 n)) ∧
      ((∀ n, o.defaultval ≠ .int n) →
        o.Int w = .panic ∧ o.Int8 w = .panic ∧ o.Int16 w = .panic ∧ o.Int32 w = .panic ∧
        o.Uint8 w = .panic ∧ o.Uint16 w = .panic ∧ o.Uint32 w = .panic)) ∧
    (Atoi64 o.value = none →
      (∀ n, o.defaultval = .int64 n → o.Int64 = .ok n) ∧
      ((∀ n, o.defaultval ≠ .int64 n) → o.Int64 = .panic)) ∧
    (Atoui w o.value = none →
      (∀ n, o.defaultval = .uint n → o.Uint w = .ok n) ∧
      ((∀ n, o.defaultval ≠ .uint n) → o.Uint w = .panic)) ∧
    (Atoui64 o.value = none →
      (∀ n, o.defaultval = .uint64 n → o.Uint64 = .ok n) ∧
      ((∀ n, o.defaultval ≠ .uint64 n) → o.Uint64 = .panic)) := by
  refine ⟨?_, ?_, ?_, ?_, ?_⟩
  · intro h
    simp [Option.Bool, h]
  · intro h
    constructor
    · intro n hn
      have hi : o.Int w = .ok n := by simp [Option.Int, h, hn]
      simp [Option.Int8, Option.Int16, Option.Int32, Option.Uint8, Option.Uint16,
        Option.Uint32, hi, Result.map]
    · intro hn
      have hi : o.Int w = .panic := by
        simp only [Option.Int, h]
      simp [Option.Int8, Option.Int16, Option.Int32, Option.Uint8, Option.Uint16,
        Option.Uint32, hi, Result.map]
  · intro h
    constructor
    · intro n hn
      simp [Option.Int64, h, hn]
    · intro hn
      simp only [Option.Int64, h]
  · intro h
    constructor
    · intro n hn
      simp [Option.Uint, h, hn]
    · intro hn
      simp only [Option.Uint, h]
  · intro h
    constructor
    · intro n hn
      simp [Option.Uint64, h, hn]
    · intro hn
      simp only [Option.Uint64, h]

/-- Instance of C12: the value `abc` of `optFive`, declared with the `int` default 5,
read with `Int` and with `Uint16`. -/
theorem C12_coercion_fallback_witness :
    optFive.Int 32 = .ok 5 ∧ optFive.Uint16 32 = .ok (toUnsigned 16 5) :=
  ⟨(((C12_coercion_fallback 32 optFive).2.1 (by decide)).1 5 rfl).1,
    (((C12_coercion_fallback 32 optFive).2.1 (by decide)).1 5 rfl).2.2.2.2.2.1⟩

/-- C12 as stated fails. `optMaybe` has the boolean default `true` and a value that is
no boolean: `Bool` returns `false`, not the default. `optText` has a string default and
a value that is no number: `Int` panics at the type assertion `defaultval.(int)`, on
32-bit and on 64-bit `int` alike. `optFive` has an `int` default: `Uint` panics at
`defaultval.(uint)`. -/
theorem C12_counterexample :
    (Atob optMaybe.value = none ∧ optMaybe.defaultval = .bool true ∧
      optMaybe.Bool = false) ∧
    (Atoi 32 optText.value = none ∧ optText.Int 32 = .panic ∧
      Atoi 64 optText.value = none ∧ optText.Int 64 = .panic) ∧
    (Atoui 32 optFive.value = none ∧ optFive.Uint 32 = .panic) := by
  decide

theorem describe_suffix_ne (d f : GoString) :
    d ≠ d ++ str " (defaults to: " ++ f ++ str ")" := by
  intro h
  have := congrArg List.length h
  have e1 : (str " (defaults to: ").length = 15 := by decide
  have e2 : (str ")").length = 1 := by decide
  simp only [List.length_append, e1, e2] at this
  omega

/-- C16. Default annotation in `Usage`. The description that `Usage` hands to the
wrapping routine for a non-header entry is `describe v`; it is `Description` followed
by `" (defaults to: <v>)"`, `<v>` being the `%v` text of the default, exactly when the
default is not a boolean and that text is not empty, and it is `Description` unchanged
otherwise. A boolean option gets no annotation, an option with the `int` default 5 gets
`(defaults to: 5)`. -/
theorem C16_usage_defaults_shown (v : Option) :
    (describe v = v.Description ++ str " (defaults to: " ++ fmtV v.defaultval ++ str ")" ↔
      (v.defaultval.isBool = false ∧ fmtV v.defaultval ≠ [])) ∧
    (¬ (v.defaultval.isBool = false ∧ fmtV v.defaultval ≠ []) →
      describe v = v.Description) ∧
    (∀ b, v.defaultval = .bool b → describe v = v.Description) ∧
    (v.defaultval = .int 5 → describe v = v.Description ++ str " (defaults to: 5)") ∧
    (∀ (wrap : GoString → Nat → Nat → Nat → List GoString) (s : Scanner) (offset : Nat)
      (vs : List Option) (out : List GoString), v.ShortName ≠ headerName →
      usageLoop wrap s offset (v :: vs) out =
        match wrap (describe v) 80 offset 0 with
        | [] => ⟨out ++ [padLeft offset (label s v)], true⟩
        | l0 :: rest =>
          usageLoop wrap s offset vs
            (out ++ [padLeft offset (label s v)] ++ [TrimSpace l0 ++ str "\n"] ++
              rest.map (fun l => l ++ str "\n"))) := by
  refine ⟨?_, ?_, ?_, ?_, ?_⟩
  · constructor
    · intro h
      by_cases hb : v.defaultval.isBool = true
      · rw [describe, if_pos hb] at h
        exact absurd h (describe_suffix_ne _ _)
      · by_cases hf : fmtV v.defaultval ≠ []
        · exact ⟨by simpa using hb, hf⟩
        · rw [describe, if_neg hb, if_neg hf] at h
          exact absurd h (describe_suffix_ne _ _)
    · rintro ⟨hb, hf⟩
      rw [describe, hb, if_neg (by simp), if_pos hf]
  · intro h
    by_cases hb : v.defaultval.isBool = true
    · rw [describe, if_pos hb]
    · by_cases hf : fmtV v.defaultval ≠ []
      · exact absurd ⟨by simpa using hb, hf⟩ h
      · rw [describe, if_neg hb, if_neg hf]
  · intro b hb
    rw [describe, hb]
    rfl
  · intro h
    have e1 : (Iface.int 5).isBool = false := rfl
    have e2 : fmtV (Iface.int 5) = str "5" := by decide
    have e3 : str " (defaults to: " ++ str "5" ++ str ")" = str " (defaults to: 5)" := by decide
    rw [describe, h, e1, if_neg (by simp), e2, if_pos (by decide), List.append_assoc,
      List.append_assoc, ← List.append_assoc (str " (defaults to: "), e3]
  · intro wrap s offset vs out hv
    rw [usageLoop, if_neg hv]

/-- Instance of C16 on the entries of `regUsage`: no annotation for `--verbose, -v`,
`(defaults to: 5)` for `--count, -c`. -/
theorem C16_usage_defaults_shown_witness :
    describe optVerbose = str "be chatty" ∧
    describe optCount = str "how many times" ++ str " (defaults to: 5)" :=
  ⟨(C16_usage_defaults_shown optVerbose).2.2.1 false rfl,
    (C16_usage_defaults_shown optCount).2.2.2.1 rfl⟩

theorem labelWidth_eq (s : Scanner) (vs : List Option) : ∀ offset : Nat,
    labelWidth s vs offset =
      max offset (((vs.filter (fun v => decide (v.ShortName ≠ headerName))).map
        (fun v => (label s v).length)).foldr max 0) := by
  induction vs with
  | nil => intro offset; simp [labelWidth]
  | cons v vs ih =>
    intro offset
    by_cases hv : v.ShortName = headerName
    · rw [labelWidth, if_pos hv, ih]
      simp [hv]
    · rw [labelWidth, if_neg hv]
      have e : (List.filter (fun v => decide (v.ShortName ≠ headerName)) (v :: vs)) =
          v :: List.filter (fun v => decide (v.ShortName ≠ headerName)) vs := by
        simp [hv]
      rw [e, List.map_cons, List.foldr_cons]
      split_ifs with h
      · rw [ih]
        omega
      · rw [ih]
        omega

theorem length_le_flatten_length {α : Type} (L : List (List α)) (h : ∀ g ∈ L, g ≠ []) :
    L.length ≤ L.flatten.length := by
  induction L with
  | nil => simp
  | cons g L ih =>
    have hg := h g (List.mem_cons_self _ _)
    have := ih (fun x hx => h x (List.mem_cons_of_mem _ hx))
    obtain ⟨a, g', rfl⟩ := List.exists_cons_of_ne_nil hg
    simp only [List.flatten_cons, List.length_append, List.length_cons]
    omega

theorem runes_length_le (t : GoString) : (runes t).length ≤ t.length := by
  have := length_le_flatten_length (runes t) (runesAux_ne_nil _ _)
  rwa [runes_flatten] at this

theorem runes_replicate_blank (k : Nat) (t : GoString) :
    (runes (List.replicate k 32 ++ t)).length = k + (runes t).length := by
  induction k with
  | zero => simp
  | succ k ih =>
    rw [List.replicate_succ, List.cons_append, runes_cons_ascii 32 _ (by decide),
      List.length_cons, ih]
    omega

theorem label_le_maxLabel (s : Scanner) (v : Option) (hv : v ∈ s.options)
    (hh : v.ShortName ≠ headerName) : (label s v).length ≤ maxLabel s := by
  unfold maxLabel
  have hm : (label s v).length ∈
      (s.options.filter (fun v => decide (v.ShortName ≠ headerName))).map
        (fun v => (label s v).length) := by
    apply List.mem_map.2
    exact ⟨v, List.mem_filter.2 ⟨hv, by simpa using hh⟩, rfl⟩
  generalize (s.options.filter (fun v => decide (v.ShortName ≠ headerName))).map
    (fun v => (label s v).length) = L at hm
  induction L with
  | nil => simp at hm
  | cons a L ih =>
    rw [List.foldr_cons]
    rcases List.mem_cons.1 hm with h | h
    · omega
    · have := ih h
      omega

theorem usageLoop_append (wrap : GoString → Nat → Nat → Nat → List GoString) (s : Scanner)
    (offset : Nat) (pre post : List Option) : ∀ out : List GoString,
    usageLoop wrap s offset (pre ++ post) out =
      if (usageLoop wrap s offset pre out).panicked = true then usageLoop wrap s offset pre out
      else usageLoop wrap s offset post (usageLoop wrap s offset pre out).out := by
  induction pre with
  | nil => intro out; simp [usageLoop]
  | cons v pre ih =>
    intro out
    rw [List.cons_append, usageLoop, usageLoop]
    by_cases hv : v.ShortName = headerName
    · rw [if_pos hv, if_pos hv]
      exact ih _
    · rw [if_neg hv, if_neg hv]
      cases wrap (describe v) 80 offset 0 with
      | nil => simp
      | cons l0 rest => exact ih _

theorem usageLoop_ends_newline (wrap : GoString → Nat → Nat → Nat → List GoString)
    (s : Scanner) (offset : Nat) (vs : List Option) : ∀ out : List GoString,
    out.flatten.getLast? = some 10 →
    (usageLoop wrap s offset vs out).panicked = false →
    (usageLoop wrap s offset vs out).out.flatten.getLast? = some 10 := by
  induction vs with
  | nil => intro out h _; exact h
  | cons v vs ih =>
    intro out h hp
    rw [usageLoop] at hp ⊢
    by_cases hv : v.ShortName = headerName
    · rw [if_pos hv] at hp ⊢
      apply ih _ _ hp
      have e : str "\n[" ++ v.Description ++ str "]\n" =
          (str "\n[" ++ v.Description ++ str "]") ++ [10] := by
        have : str "]\n" = str "]" ++ [10] := by decide
        rw [this]
        simp
      rw [List.flatten_append, List.flatten_singleton, e, ← List.append_assoc]
      simp
    · rw [if_neg hv] at hp ⊢
      cases hw : wrap (describe v) 80 offset 0 with
      | nil => rw [hw] at hp; simp at hp
      | cons l0 rest =>
        rw [hw] at hp
        dsimp only at hp ⊢
        apply ih _ _ hp
        have e10 : str "\n" = [10] := by decide
        rw [e10]
        rcases List.eq_nil_or_concat rest with rfl | ⟨init, z, rfl⟩
        · simp [← List.append_assoc]
        · rw [List.concat_eq_append]
          simp [← List.append_assoc]

theorem usageLoop_extends (wrap : GoString → Nat → Nat → Nat → List GoString) (s : Scanner)
    (offset : Nat) (vs : List Option) : ∀ out : List GoString,
    out <+: (usageLoop wrap s offset vs out).out := by
  induction vs with
  | nil => intro out; exact List.prefix_refl _
  | cons v vs ih =>
    intro out
    rw [usageLoop]
    by_cases hv : v.ShortName = headerName
    · rw [if_pos hv]
      exact (List.prefix_append _ _).trans (ih _)
    · rw [if_neg hv]
      cases wrap (describe v) 80 offset 0 with
      | nil => exact List.prefix_append _ _
      | cons l0 rest =>
        dsimp only
        refine List.IsPrefix.trans ?_ (ih _)
        rw [List.append_assoc, List.append_assoc]
        exact List.prefix_append _ _

/-- C17. Column alignment in `Usage`. The offset is 1 plus the largest length of the
label `LongSwitch ++ Name ++ ", " ++ ShortSwitch ++ ShortName ++ ": "` over the entries
whose `ShortName` is not the header mark (1 when there is none). For every such entry
the text printed for the label is the label behind at least one blank, and it is
exactly `offset` characters wide. When `Usage` reaches an entry without having
panicked, what was printed so far ends with a line feed; for a header entry it then
prints `"\n[" ++ Description ++ "]\n"`, an empty line and the bracketed title; for
another entry it first prints the padded label. -/
theorem C17_usage_column_alignment (wrap : GoString → Nat → Nat → Nat → List GoString)
    (info : GoString) (s : Scanner) :
    usageOffset s = 1 + maxLabel s ∧
    (∀ v ∈ s.options, v.ShortName ≠ headerName →
      ∃ k, 1 ≤ k ∧
        padLeft (usageOffset s) (label s v) = List.replicate k 32 ++ label s v ∧
        (runes (padLeft (usageOffset s) (label s v))).length = usageOffset s) ∧
    (∀ pre v post, s.options = pre ++ v :: post →
      (usageLoop wrap s (usageOffset s) pre [info ++ str "\n"]).panicked = false →
      (usageLoop wrap s (usageOffset s) pre [info ++ str "\n"]).out.flatten.getLast?
          = some 10 ∧
      (v.ShortName = headerName →
        Usage wrap info s = usageLoop wrap s (usageOffset s) post
          ((usageLoop wrap s (usageOffset s) pre [info ++ str "\n"]).out ++
            [str "\n[" ++ v.Description ++ str "]\n"])) ∧
      (v.ShortName ≠ headerName →
        (usageLoop wrap s (usageOffset s) pre [info ++ str "\n"]).out ++
            [padLeft (usageOffset s) (label s v)] <+: (Usage wrap info s).out)) := by
  have hoff : usageOffset s = 1 + maxLabel s := by
    rw [usageOffset, labelWidth_eq, maxLabel]
    simp only [Nat.zero_max]
    omega
  refine ⟨hoff, ?_, ?_⟩
  · intro v hv hh
    have h1 := label_le_maxLabel s v hv hh
    have h2 := runes_length_le (label s v)
    refine ⟨usageOffset s - (runes (label s v)).length, by omega, rfl, ?_⟩
    rw [padLeft, runes_replicate_blank]
    omega
  · intro pre v post hs hp
    have hinfo : [info ++ str "\n"].flatten.getLast? = some 10 := by
      have : str "\n" = [10] := by decide
      rw [List.flatten_singleton, this]
      simp
    have hU : Usage wrap info s = usageLoop wrap s (usageOffset s) (v :: post)
        (usageLoop wrap s (usageOffset s) pre [info ++ str "\n"]).out := by
      rw [Usage, hs, usageLoop_append, hp]
      simp
    refine ⟨usageLoop_ends_newline wrap s _ pre _ hinfo hp, ?_, ?_⟩
    · intro hh
      rw [hU, usageLoop, if_pos hh]
    · intro hh
      rw [hU, usageLoop, if_neg hh]
      cases wrap (describe v) 80 (usageOffset s) 0 with
      | nil => exact List.prefix_refl _
      | cons l0 rest =>
        dsimp only
        refine List.IsPrefix.trans ?_ (usageLoop_extends wrap s _ post _)
        rw [List.append_assoc _ [TrimSpace l0 ++ str "\n"]]
        exact List.prefix_append _ _

/-- Instance of C17 on `regUsage`: the offset is 16, and the label of `--count, -c` is
printed behind three blanks. -/
theorem C17_usage_column_alignment_witness :
    usageOffset (initial regUsage) = 16 ∧
    padLeft (usageOffset (initial regUsage)) (label (initial regUsage) optCount) =
      str "   --count, -c: " :=
  ⟨((C17_usage_column_alignment multilineWrap (str "Usage: prog [options]:")
      (initial regUsage)).1).trans (by decide),
    by
      obtain ⟨k, -, hk, -⟩ := (C17_usage_column_alignment multilineWrap
        (str "Usage: prog [options]:") (initial regUsage)).2.1 optCount (by decide)
        (by decide)
      exact hk.trans (by rw [← hk]; decide)⟩

theorem splitWords_ne_nil (t : GoString) : splitWords t ≠ [] := by
  cases t with
  | nil => simp [splitWords]
  | cons ch rest =>
    rw [splitWords]
    split_ifs
    · simp
    · cases splitWords rest <;> simp

theorem splitWords_join (t : GoString) : ∀ (w : GoString) (ws : List GoString),
    splitWords t = w :: ws → w ++ ws.flatMap (fun x => 32 :: x) = t := by
  induction t with
  | nil =>
    intro w ws h
    simp only [splitWords, List.cons.injEq] at h
    obtain ⟨rfl, rfl⟩ := h
    rfl
  | cons ch rest ih =>
    intro w ws h
    rw [splitWords] at h
    by_cases hc : ch = 32
    · rw [if_pos hc] at h
      simp only [List.cons.injEq] at h
      obtain ⟨rfl, rfl⟩ := h
      obtain ⟨w1, ws1, h1⟩ := List.exists_cons_of_ne_nil (splitWords_ne_nil rest)
      rw [h1, List.flatMap_cons, List.nil_append, List.cons_append, ih w1 ws1 h1, hc]
    · rw [if_neg hc] at h
      obtain ⟨w1, ws1, h1⟩ := List.exists_cons_of_ne_nil (splitWords_ne_nil rest)
      rw [h1] at h
      simp only [List.cons.injEq] at h
      obtain ⟨rfl, rfl⟩ := h
      rw [List.cons_append, ih w1 ws1 h1]

theorem fillLines_fit (width : Nat) (ws : List GoString) : ∀ cur : GoString,
    (cur ++ ws.flatMap (fun x => 32 :: x)).length ≤ width →
    fillLines width cur ws = [cur ++ ws.flatMap (fun x => 32 :: x)] := by
  induction ws with
  | nil => intro cur _; simp [fillLines]
  | cons w ws ih =>
    intro cur h
    have hfit : cur.length + 1 + w.length ≤ width := by
      simp only [List.flatMap_cons, List.length_append, List.cons_append,
        List.length_cons] at h
      omega
    rw [fillLines, if_pos hfit, ih]
    · simp
    · simpa using h

theorem TrimSpace_blank_cons (t : GoString) : TrimSpace (32 :: t) = TrimSpace t := by
  have h : spaceRune [32] = true := by decide
  rw [TrimSpace, runes_cons_ascii 32 t (by decide), List.dropWhile_cons, if_pos h, TrimSpace]

theorem TrimSpace_blanks (k : Nat) (t : GoString) :
    TrimSpace (List.replicate k 32 ++ t) = TrimSpace t := by
  induction k with
  | zero => rfl
  | succ k ih => rw [List.replicate_succ, List.cons_append, TrimSpace_blank_cons, ih]

theorem multilineWrap_short (text : GoString) (linesize leftmargin rightmargin : Nat)
    (h : text.length < linesize - leftmargin - rightmargin) :
    multilineWrap text linesize leftmargin rightmargin =
      [List.replicate leftmargin 32 ++ text] := by
  obtain ⟨w, ws, hw⟩ := List.exists_cons_of_ne_nil (splitWords_ne_nil text)
  have hj := splitWords_join text w ws hw
  rw [multilineWrap, hw]
  dsimp only
  rw [fillLines_fit _ ws w (by rw [hj]; omega), hj]
  rfl

/-- C18 (as amended; the wrapping routine is the one modelled from the spec). A
description shorter than the wrap width `80 - offset` comes back from
`multilineWrap(desc, 80, offset, 0, ALIGN_LEFT)` as exactly one line, the indentation
followed by the description; when the description has no surrounding white space the
trimmed line is the description itself, and `Usage` prints it on one line right after
the label. -/
theorem C18_short_description_one_line (desc : GoString) (offset : Nat)
    (hshort : desc.length < 80 - offset) (htrim : TrimSpace desc = desc) :
    multilineWrap desc 80 offset 0 = [List.replicate offset 32 ++ desc] ∧
    TrimSpace (List.replicate offset 32 ++ desc) = desc ∧
    (∀ (s : Scanner) (v : Option) (vs : List Option) (out : List GoString),
      v.ShortName ≠ headerName → describe v = desc →
      usageLoop multilineWrap s offset (v :: vs) out =
        usageLoop multilineWrap s offset vs
          (out ++ [padLeft offset (label s v), desc ++ str "\n"])) := by
  have h1 := multilineWrap_short desc 80 offset 0 (by simpa using hshort)
  have h2 : TrimSpace (List.replicate offset 32 ++ desc) = desc := by
    rw [TrimSpace_blanks, htrim]
  refine ⟨h1, h2, ?_⟩
  intro s v vs out hv hd
  rw [usageLoop, if_neg hv, hd, h1]
  dsimp only
  rw [h2]
  simp

/-- Instance of C18: the description of `--count, -c` with its annotation, at the offset
16 of `regUsage`. -/
theorem C18_short_description_one_line_witness :
    multilineWrap (describe optCount) 80 16 0 =
        [List.replicate 16 32 ++ describe optCount] ∧
    TrimSpace (List.replicate 16 32 ++ describe optCount) = describe optCount :=
  ⟨(C18_short_description_one_line (describe optCount) 16 (by decide) (by decide)).1,
    (C18_short_description_one_line (describe optCount) 16 (by decide) (by decide)).2.1⟩

/-- C18 as stated fails: the description `" no output"` of `optLead` is shorter than
the wrap width and comes back as one line, but `Usage` trims that line (line 101), so
what is printed, `"no output"`, is not the description unchanged. -/
theorem C18_counterexample :
    (describe optLead).length < 80 - 16 ∧
    multilineWrap (describe optLead) 80 16 0 = [List.replicate 16 32 ++ str " no output"] ∧
    TrimSpace (List.replicate 16 32 ++ str " no output") = str "no output" ∧
    str "no output" ≠ describe optLead := by
  decide

end optarg
